import Mathlib

/-!
Verification of the model-framework specification against a shallow embedding
of `src/mframework/_mframework.py`.

The embedding follows the Python source closely:

* Python dictionaries (insertion ordered, unique keys) are modelled as
  association lists `List (κ × β)` together with the helper operations
  `alookup` (membership respecting first occurrence), `aupdate`
  (overwrite-in-place or append) and `aerase` (delete).
* `ItemDict` is the ordered multimap of the source: per main key it keeps the
  dense ordinal-indexed value map (`values`, ordinal `i` is `values[i]`), the
  UID-to-ordinal map `_uid` (a `UniqueDict`: a UID can never be re-assigned)
  and its inverse `_idx`.
* Fallible Python methods become `Except PyError` functions; the distinct
  Python exception classes are the constructors of `PyError`.
* The process-random `uuid4` identifiers carried by specifications and
  containers play no role in any behaviour modelled here and are omitted.
* Value validation is delegated by the source to the external `schemadict`
  validator; the embedding keeps the schema as opaque data of type `σ` and
  takes the external verdict as an explicit function `validate : σ → α → Bool`.
-/

namespace MFramework

/-- Python exception values raised by the framework.  `keyError`,
`runtimeError`, `typeError` and `indexError` mirror the built-in exception
classes used by the source; `schemaError` stands for the exception family
raised by the external `schemadict` validator; `requirementNotMet` and
`cardinalityExceeded` belong to the spec-modelled required-count and
max-items checks (see below). -/
inductive PyError where
  | keyError (msg : String)
  | runtimeError (msg : String)
  | typeError (msg : String)
  | indexError (msg : String)
  | schemaError (key : String)
  | requirementNotMet (name : String) (expected actual : Nat)
  | cardinalityExceeded (name : String) (maxItems : Nat)
  deriving Repr, DecidableEq

/-- Lookup in an insertion-ordered association list (Python `d[k]` read). -/
def alookup {κ β : Type} [DecidableEq κ] : List (κ × β) → κ → Option β
  | [], _ => none
  | (k, v) :: rest, key => if k = key then some v else alookup rest key

/-- Write to an insertion-ordered association list (Python `d[k] = v`):
overwrite in place when the key exists, append otherwise. -/
def aupdate {κ β : Type} [DecidableEq κ] : List (κ × β) → κ → β → List (κ × β)
  | [], key, v => [(key, v)]
  | (k, w) :: rest, key, v =>
      if k = key then (k, v) :: rest else (k, w) :: aupdate rest key v

/-- Delete a key from an association list (Python `del d[k]`, with the
`KeyError` swallowed as in `ItemDict.__delitem__`). -/
def aerase {κ β : Type} [DecidableEq κ] : List (κ × β) → κ → List (κ × β)
  | [], _ => []
  | (k, w) :: rest, key => if k = key then rest else (k, w) :: aerase rest key

/-- Keys of the association list are pairwise distinct (true of every state
reachable through the Python dict operations). -/
def keysNodup {κ β : Type} [DecidableEq κ] : List (κ × β) → Bool
  | [] => true
  | (k, _) :: rest => (alookup rest k).isNone && keysNodup rest

/-- Per-main-key state of an `ItemDict`: the dense ordinal-indexed values
(`_map[kmain]`, ordinal `i` stored at position `i`), the UID map
(`_uid[kmain]`, a `UniqueDict`) and its inverse (`_idx[kmain]`).  Ordinals
are kept as `Int` because `assign_uid` computes `len - 1`, which is `-1` on
an empty entry. -/
structure ItemEntry (α : Type) where
  values : List α
  uidToIdx : List (String × Int)
  idxToUid : List (Int × String)
  deriving Repr, DecidableEq

/-- Empty per-key state, created by `ItemDict.__missing__`. -/
def ItemEntry.empty {α : Type} : ItemEntry α := ⟨[], [], []⟩

/-- The `ItemDict` of the source: main keys in insertion order, each carrying
its `ItemEntry`. -/
abbrev ItemDict (α : Type) : Type := List (String × ItemEntry α)

/-- Read of `self._map[kmain]`: a missing main key behaves as the empty entry
(`__missing__` creates it; the embedding elides the bookkeeping mutation,
which is observationally irrelevant to the operations modelled here). -/
def ItemDict.getEntry {α : Type} (d : ItemDict α) (k : String) : ItemEntry α :=
  (alookup d k).getD ItemEntry.empty

/-- Python `ItemDict.__setitem__`: append `v` at the next free ordinal of
main key `k`; a fresh main key is created at the end of the dict. -/
def ItemDict.appendItem {α : Type} (d : ItemDict α) (k : String) (v : α) : ItemDict α :=
  match alookup d k with
  | none => d ++ [(k, ⟨[v], [], []⟩)]
  | some e => aupdate d k ⟨e.values ++ [v], e.uidToIdx, e.idxToUid⟩

/-- Python `ItemDict.__delitem__`: remove the whole main key; no error when
the key is absent. -/
def ItemDict.delItem {α : Type} (d : ItemDict α) (k : String) : ItemDict α :=
  aerase d k

/-- Ordinal read `self._map[kmain][idx]` for an `Int` index: the dict keys
are exactly `0, …, len-1`, so a negative index is a `KeyError`. -/
def lookupOrd {α : Type} (vs : List α) (i : Int) : Option α :=
  if i < 0 then none else vs.get? i.toNat

/-- Python `ItemDict.assign_uid(kmain, uid, idx=-1)`.  A negative `idx` is
replaced by the ordinal of the most recently appended value; the UID map is a
`UniqueDict`, so an already-bound UID raises `KeyError`; a main key that was
never touched raises `KeyError` (plain dict access on `self._uid`). -/
def ItemDict.assignUid {α : Type} (d : ItemDict α) (k uid : String) (idx : Int) :
    Except PyError (ItemDict α) :=
  match alookup d k with
  | none => .error (.keyError k)
  | some e =>
      let i : Int := if idx < 0 then (e.values.length : Int) - 1 else idx
      if (alookup e.uidToIdx uid).isSome then
        .error (.keyError (uid ++ ": entry already defined"))
      else
        .ok (aupdate d k ⟨e.values, e.uidToIdx ++ [(uid, i)], aupdate e.idxToUid i uid⟩)

/-- Python `ItemDict.get_by_uid(kmain, uid)`: resolve the UID to its ordinal
and return the value stored there. -/
def ItemDict.getByUid {α : Type} (d : ItemDict α) (k uid : String) : Except PyError α :=
  match alookup d k with
  | none => .error (.keyError k)
  | some e =>
      match alookup e.uidToIdx uid with
      | none => .error (.keyError uid)
      | some i =>
          match lookupOrd e.values i with
          | none => .error (.keyError (toString i))
          | some v => .ok v

/-- Ascending sort of a list of ordinals, mirroring Python `sorted`. -/
def sortInts (l : List Int) : List Int := l.insertionSort (· ≤ ·)

/-- Python `ItemDict.iter_by_uid(kmain)`: walk the UID-assigned ordinals in
ascending order and yield `(uid, value)` for each; ordinals without a UID do
not occur in `self._uid[kmain].values()` and are therefore never visited. -/
def ItemDict.iterByUid {α : Type} (d : ItemDict α) (k : String) :
    Except PyError (List (String × α)) :=
  match alookup d k with
  | none => .error (.keyError k)
  | some e =>
      (sortInts (e.uidToIdx.map Prod.snd)).mapM fun i =>
        match alookup e.idxToUid i, lookupOrd e.values i with
        | some uid, some v => .ok (uid, v)
        | _, _ => .error (.keyError (toString i))

/-- Python `key.startswith(chr(36))`, the reserved-metadata-key test of
`from_dict`: true exactly when the first character of the key is the
dollar sign. -/
def startsWithDollar (s : String) : Bool :=
  match s.data with
  | [] => false
  | c :: _ => c = '$'

/-- A `SpecEntry` of the source.  The snapshot under `src/` declares
`required` as a plain boolean and has no maximum-item count at all; the
enforcement code that consumes them is absent from `src/` although the
repository tests exercise it (`required=3`, `max_items=3`, …).  Following
the spec (§3), which the missing code was modelled from, `required` is
a count (`int ≥ 0`, boolean treated as 0/1) and `maxItems` an optional
finite bound (absent = unbounded):

* `required : Nat` — modelled from the spec: minimum number of stored values
  the required-check demands.
* `maxItems : Option Nat` — modelled from the spec: greatest number of stored
  values `add` may reach.

All remaining fields are exactly the source attributes; `schema` is the
opaque description handed to the external validator. -/
structure SpecEntry (σ : Type) where
  schema : σ
  singleton : Bool
  required : Nat
  doc : String
  uidRequired : Bool
  maxItems : Option Nat
  deriving Repr, DecidableEq

/-- Result values of `_UserSpaceBase.get`, which can return the stored value
itself (singleton), the list of stored values (non-singleton), or the
caller-supplied default (here `noneV` unless another default is passed). -/
inductive PyVal (α : Type) where
  | noneV
  | val (a : α)
  | seq (l : List α)
  deriving Repr, DecidableEq

/-- A feature-level user-space container (`_FeatureUserSpace`): the bound
property specification (`_parent_specs`, shared and read-only) and the owned
item store (`_items`). -/
structure Feature (σ α : Type) where
  specs : List (String × SpecEntry σ)
  items : ItemDict α
  deriving Repr, DecidableEq

namespace Feature

variable {σ α : Type}

/-- Python `_UserSpaceBase._check_key_in_spec`. -/
def checkKeyInSpec (f : Feature σ α) (key : String) : Except PyError Unit :=
  if (alookup f.specs key).isSome then .ok ()
  else .error (.keyError (key ++ " is not in specification"))

/-- Python `_UserSpaceBase.set`: key check, schema validation, singleton
check, then delete-and-append (overwrite semantics). -/
def set (validate : σ → α → Bool) (f : Feature σ α) (key : String) (v : α) :
    Except PyError (Feature σ α) :=
  match alookup f.specs key with
  | none => .error (.keyError (key ++ " is not in specification"))
  | some e =>
      if validate e.schema v = false then .error (.schemaError key)
      else if e.singleton = false then
        .error (.runtimeError (key ++ ": set does not apply, try add"))
      else .ok ⟨f.specs, (f.items.delItem key).appendItem key v⟩

/-- Python `_UserSpaceBase.add`: key check, UID-required check, schema
validation, non-singleton check, append, optional UID assignment. -/
def add (validate : σ → α → Bool) (f : Feature σ α) (key : String) (v : α)
    (uid : Option String) : Except PyError (Feature σ α) :=
  match alookup f.specs key with
  | none => .error (.keyError (key ++ " is not in specification"))
  | some e =>
      if e.uidRequired && uid.isNone then
        .error (.runtimeError (key ++ " requires a UID"))
      else if validate e.schema v = false then .error (.schemaError key)
      else if e.singleton then
        .error (.runtimeError (key ++ ": add does not apply, try set"))
      else
        let items1 := f.items.appendItem key v
        match uid with
        | none => .ok ⟨f.specs, items1⟩
        | some u => (items1.assignUid key u (-1)).map fun d => ⟨f.specs, d⟩

/-- Modelled from the spec (§4.3 `add`): the snapshot under `src/` lacks the
`max_items` bound that the repository tests exercise; per the spec, `add`
"fails with CardinalityExceeded if the post-insert count would exceed
max_items" after schema validation and before appending.  All other steps
are the source `add`. -/
def addChecked (validate : σ → α → Bool) (f : Feature σ α) (key : String) (v : α)
    (uid : Option String) : Except PyError (Feature σ α) :=
  match alookup f.specs key with
  | none => .error (.keyError (key ++ " is not in specification"))
  | some e =>
      if e.uidRequired && uid.isNone then
        .error (.runtimeError (key ++ " requires a UID"))
      else if validate e.schema v = false then .error (.schemaError key)
      else if e.singleton then
        .error (.runtimeError (key ++ ": add does not apply, try set"))
      else
        match e.maxItems with
        | some m =>
            if m < (f.items.getEntry key).values.length + 1 then
              .error (.cardinalityExceeded key m)
            else
              let items1 := f.items.appendItem key v
              match uid with
              | none => .ok ⟨f.specs, items1⟩
              | some u => (items1.assignUid key u (-1)).map fun d => ⟨f.specs, d⟩
        | none =>
            let items1 := f.items.appendItem key v
            match uid with
            | none => .ok ⟨f.specs, items1⟩
            | some u => (items1.assignUid key u (-1)).map fun d => ⟨f.specs, d⟩

/-- Python `_UserSpaceBase.add_many`: sequential `add` with no UID. -/
def addMany (validate : σ → α → Bool) (f : Feature σ α) (key : String)
    (vs : List α) : Except PyError (Feature σ α) :=
  vs.foldlM (fun acc v => add validate acc key v none) f

/-- Python `_UserSpaceBase.get`: key check; default when nothing is stored;
the sole ordinal-0 value for a singleton; UID lookup or the full ordered
value list otherwise. -/
def get (f : Feature σ α) (key : String) (default : PyVal α)
    (uid : Option String) : Except PyError (PyVal α) :=
  match alookup f.specs key with
  | none => .error (.keyError (key ++ " is not in specification"))
  | some e =>
      match (f.items.getEntry key).values with
      | [] => .ok default
      | v :: rest =>
          if e.singleton then .ok (.val v)
          else
            match uid with
            | some u => (f.items.getByUid key u).map .val
            | none => .ok (.seq (v :: rest))

/-- Python `_UserSpaceBase.iter`: no explicit key check — the attribute
access on the specification raises `KeyError` for an unknown name; a
singleton raises; otherwise the stored values in insertion order.  Each
Python call returns a fresh generator over a snapshot of the values, so
iteration is restartable; the embedding returns the yielded list. -/
def iter (f : Feature σ α) (key : String) : Except PyError (List α) :=
  match alookup f.specs key with
  | none => .error (.keyError key)
  | some e =>
      if e.singleton then .error (.keyError (key ++ ": try get"))
      else .ok (f.items.getEntry key).values

/-- Python `_UserSpaceBase.len`: the stored count, read straight off the
item store with no specification check (`__missing__` yields the empty
entry for an unseen name). -/
def len (f : Feature σ α) (key : String) : Nat :=
  (f.items.getEntry key).values.length

/-- Python `_UserSpaceBase.to_dict` minus the `$level`/`$uid` metadata
entries, whose values carry no item data and are skipped by `from_dict`. -/
def toDict (f : Feature σ α) : List (String × List α) :=
  f.items.map fun p => (p.1, p.2.values)

/-- One iteration of the `_UserSpaceBase.from_dict` loop: skip metadata
keys, check the key against the specification, then `set` the first listed
value (singleton) or `add_many` all of them (non-singleton). -/
def fromDictStep (validate : σ → α → Bool) (acc : Feature σ α)
    (p : String × List α) : Except PyError (Feature σ α) :=
  if startsWithDollar p.1 then .ok acc
  else
    match alookup acc.specs p.1 with
    | none => .error (.keyError (p.1 ++ " is not in specification"))
    | some e =>
        if e.singleton then
          match p.2 with
          | [] => .error (.indexError p.1)
          | v :: _ => set validate acc p.1 v
        else addMany validate acc p.1 p.2

/-- Python `_UserSpaceBase.from_dict`: the loop over the key-value pairs. -/
def fromDict (validate : σ → α → Bool) (f : Feature σ α)
    (d : List (String × List α)) : Except PyError (Feature σ α) :=
  d.foldlM (fromDictStep validate) f

end Feature

/-- A model-level specification entry (`add_feature_spec`): the schema slot
holds the feature specification itself (the property registry of the
feature), alongside the same flags as `SpecEntry`.  As for `SpecEntry`,
`required` is a count modelled from the spec (the snapshot declares a
boolean consumed by nothing under `src/`). -/
structure MSpecEntry (σ : Type) where
  fspec : List (String × SpecEntry σ)
  singleton : Bool
  required : Nat
  doc : String
  uidRequired : Bool
  deriving Repr, DecidableEq

/-- A model-level user-space container (`_ModelUserSpace`): the bound
feature registry and an item store whose values are feature containers.
The `results` slot instantiated by `run` is not modelled (no claim touches
it). -/
structure Model (σ α : Type) where
  specs : List (String × MSpecEntry σ)
  items : ItemDict (Feature σ α)
  deriving Repr, DecidableEq

/-- Marker for the Python class object `NotImplementedError` used as an
ordinary return value by `_ModelUserSpace.set`/`add`. -/
inductive PyClassVal where
  | notImplementedErrorCls
  deriving Repr, DecidableEq

namespace Model

variable {σ α : Type}

/-- Python `_ModelUserSpace.set`: the body is `return NotImplementedError` —
the exception class object is returned as a value, nothing is raised and the
container is left untouched.  The total (non-`Except`) type records that no
exception can escape. -/
def set {β : Type} (m : Model σ α) (_key : String) (_v : β) : Model σ α × PyClassVal :=
  (m, .notImplementedErrorCls)

/-- Python `_ModelUserSpace.add`: same as `set` — `return NotImplementedError`. -/
def add {β : Type} (m : Model σ α) (_key : String) (_v : β) : Model σ α × PyClassVal :=
  (m, .notImplementedErrorCls)

/-- Python `_UserSpaceBase.get` as inherited by `_ModelUserSpace`: the
stored items are feature containers. -/
def get (m : Model σ α) (key : String) (default : PyVal (Feature σ α))
    (uid : Option String) : Except PyError (PyVal (Feature σ α)) :=
  match alookup m.specs key with
  | none => .error (.keyError (key ++ " is not in specification"))
  | some e =>
      match (m.items.getEntry key).values with
      | [] => .ok default
      | f :: rest =>
          if e.singleton then .ok (.val f)
          else
            match uid with
            | some u => (m.items.getByUid key u).map .val
            | none => .ok (.seq (f :: rest))

/-- Python `_ModelUserSpace.set_feature`: the attribute access on the bound
specification raises `KeyError` for an unknown name; a non-singleton name
raises `RuntimeError`; otherwise a fresh feature container bound to the
specification entry is instantiated and stored via `ItemDict.__setitem__`.
The source comment says the instance is stored "as list of length 1", but
`ItemDict.__setitem__` appends, so prior instances under the name are kept. -/
def setFeature (m : Model σ α) (key : String) :
    Except PyError (Model σ α × Feature σ α) :=
  match alookup m.specs key with
  | none => .error (.keyError key)
  | some e =>
      if e.singleton = false then
        .error (.runtimeError (key ++ ": set_feature does not apply, try add_feature"))
      else
        let inst : Feature σ α := ⟨e.fspec, []⟩
        .ok (⟨m.specs, m.items.appendItem key inst⟩, inst)

/-- Python `_ModelUserSpace.add_feature`: singleton check, UID-required
check, instantiate, append, optional UID assignment. -/
def addFeature (m : Model σ α) (key : String) (uid : Option String) :
    Except PyError (Model σ α × Feature σ α) :=
  match alookup m.specs key with
  | none => .error (.keyError key)
  | some e =>
      if e.singleton then
        .error (.runtimeError (key ++ ": add_feature does not apply, try set_feature"))
      else if e.uidRequired && uid.isNone then
        .error (.runtimeError (key ++ " requires a UID"))
      else
        let inst : Feature σ α := ⟨e.fspec, []⟩
        let items1 := m.items.appendItem key inst
        match uid with
        | none => .ok (⟨m.specs, items1⟩, inst)
        | some u => (items1.assignUid key u (-1)).map fun d => (⟨m.specs, d⟩, inst)

/-- Python `_ModelUserSpace.to_dict` minus the `$level`/`$uid` metadata:
each stored feature container is serialized in place, in insertion order. -/
def toDict (m : Model σ α) : List (String × List (List (String × List α))) :=
  m.items.map fun p => (p.1, p.2.values.map Feature.toDict)

/-- Construction and population of one feature inside the
`_ModelUserSpace.from_dict` loop (`set_feature` dispatch for a singleton
name, `add_feature` with no UID otherwise, then `Feature.from_dict` on the
new instance).  The source stores the fresh instance first and then
populates it through the stored alias; the pure embedding populates the
instance and then stores it, which agrees on every non-error run. -/
def fromDictOne (validate : σ → α → Bool) (key : String) (e : MSpecEntry σ)
    (acc : Model σ α) (fdict : List (String × List α)) :
    Except PyError (Model σ α) :=
  if e.singleton = false && e.uidRequired then
    .error (.runtimeError (key ++ " requires a UID"))
  else do
    let inst ← Feature.fromDict validate ⟨e.fspec, []⟩ fdict
    .ok ⟨acc.specs, acc.items.appendItem key inst⟩

/-- One iteration of the `_ModelUserSpace.from_dict` outer loop: skip
metadata keys, check the key, then construct-and-populate one feature per
serialized sub-dictionary (the `add_feature` dispatch checks the
UID-required flag before storing, the `set_feature` dispatch has no such
check). -/
def fromDictStep (validate : σ → α → Bool) (acc : Model σ α)
    (p : String × List (List (String × List α))) :
    Except PyError (Model σ α) :=
  if startsWithDollar p.1 then .ok acc
  else
    match alookup acc.specs p.1 with
    | none => .error (.keyError (p.1 ++ " is not in specification"))
    | some e => p.2.foldlM (fromDictOne validate p.1 e) acc

/-- Python `_ModelUserSpace.from_dict`: the outer loop over the serialized
feature names. -/
def fromDict (validate : σ → α → Bool) (m : Model σ α)
    (d : List (String × List (List (String × List α)))) :
    Except PyError (Model σ α) :=
  d.foldlM (fromDictStep validate) m

/-- Modelled from the spec (§4.4): the required-check over one feature
container — "walks every SpecEntry in the bound registry; for each, if
required > 0, the actual stored count for that name must be ≥ required …
On first violation, fails with a RequirementNotMet error identifying the
offending name and the expected/actual counts."  The snapshot under `src/`
leaves this as a TODO in `_ModelUserSpace.run`, while the repository tests
exercise it. -/
def featureRequiredCheck (f : Feature σ α) : Except PyError Unit :=
  go f.items f.specs
where
  /-- Walk of the specification entries in registration order. -/
  go (items : ItemDict α) : List (String × SpecEntry σ) → Except PyError Unit
    | [] => .ok ()
    | (k, se) :: rest =>
        if 0 < se.required && (items.getEntry k).values.length < se.required then
          .error (.requirementNotMet k se.required ((items.getEntry k).values.length))
        else go items rest

/-- Modelled from the spec (§4.4): the model-level required-check —
required counts of every feature name, "recursively applied one level down
for any feature whose own properties declare required-ness", failing on the
first violation in walk order. -/
def requiredCheck (m : Model σ α) : Except PyError Unit :=
  go m.items m.specs
where
  /-- Walk of the feature specification entries in registration order; each
  entry checks its own count and then every feature container stored under
  the name. -/
  go (items : ItemDict (Feature σ α)) :
      List (String × MSpecEntry σ) → Except PyError Unit
    | [] => .ok ()
    | (k, me) :: rest =>
        if 0 < me.required && (items.getEntry k).values.length < me.required then
          .error (.requirementNotMet k me.required ((items.getEntry k).values.length))
        else do
          (items.getEntry k).values.forM featureRequiredCheck
          go items rest

/-- Modelled from the spec (§4.4, §9): the two-phase compute step — the
shared framework logic (the required-check; the results-container
allocation of the source `run` is not modelled) runs first, then the
user-supplied override. -/
def run {β : Type} (m : Model σ α) (compute : Model σ α → Except PyError β) :
    Except PyError β := do
  requiredCheck m
  compute m

/-- Claim-side restatement of the required condition: every feature entry
has at least its required count of stored containers, and every stored
feature container satisfies the required counts of its own properties. -/
def featureRequiredOk (f : Feature σ α) : Bool :=
  f.specs.all fun p => decide (p.2.required ≤ (f.items.getEntry p.1).values.length)

/-- Claim-side restatement of the model-level required condition. -/
def requiredOk (m : Model σ α) : Bool :=
  m.specs.all fun p =>
    decide (p.2.required ≤ (m.items.getEntry p.1).values.length) &&
      ((m.items.getEntry p.1).values.all featureRequiredOk)

/-- A genuine required-count offender of a model state: either a feature
name whose stored-container count falls short of its required count, or a
property name of some stored feature container whose stored-value count
falls short. -/
def offender (m : Model σ α) (name : String) (exp act : Nat) : Prop :=
  (∃ me, (name, me) ∈ m.specs ∧ me.required = exp ∧
    (m.items.getEntry name).values.length = act) ∨
  (∃ k f, f ∈ (m.items.getEntry k).values ∧
    ∃ se, (name, se) ∈ f.specs ∧ se.required = exp ∧
      (f.items.getEntry name).values.length = act)

end Model

/-- Claim-side composite for C4: a sequence of `set` calls on one name. -/
def Feature.setMany {σ α : Type} (validate : σ → α → Bool) (f : Feature σ α)
    (key : String) (vs : List α) : Except PyError (Feature σ α) :=
  vs.foldlM (fun acc v => Feature.set validate acc key v) f

/-- Reference function for the amended C8, written from the spec sentence:
walk the ordinals `0, …, len-1` in ascending order and yield `(uid, value)`
for every ordinal with a UID assigned, skipping the others. -/
def iterateInOrderSpec {α : Type} (e : ItemEntry α) : List (String × α) :=
  (List.range e.values.length).filterMap fun i =>
    match alookup e.idxToUid ((i : Nat) : Int), e.values.get? i with
    | some uid, some v => some (uid, v)
    | _, _ => none

/-- Well-formedness of the UID bookkeeping of one entry, true of every state
reachable through `append`/`assign_uid`: UIDs are unique (`UniqueDict`),
each UID is bound to a distinct in-range ordinal, and the two maps are
mutually inverse. -/
def ItemEntry.wfUid {α : Type} (e : ItemEntry α) : Bool :=
  keysNodup e.uidToIdx &&
  decide ((e.uidToIdx.map Prod.snd).Nodup) &&
  e.uidToIdx.all (fun p =>
    decide (0 ≤ p.2) && decide (p.2 < (e.values.length : Int)) &&
      decide (alookup e.idxToUid p.2 = some p.1)) &&
  e.idxToUid.all (fun p => decide (alookup e.uidToIdx p.2 = some p.1))

/-- Serialization discards the UID bookkeeping of an entry. -/
def ItemEntry.strip {α : Type} (e : ItemEntry α) : ItemEntry α :=
  ⟨e.values, [], []⟩

/-- Serialization round trip of a feature container: same specification,
same values in the same order, UID bindings discarded. -/
def Feature.strip {σ α : Type} (f : Feature σ α) : Feature σ α :=
  ⟨f.specs, f.items.map fun p => (p.1, p.2.strip)⟩

/-- Serialization round trip of a model container: every stored feature
container stripped, all UID bookkeeping discarded. -/
def Model.stripAll {σ α : Type} (m : Model σ α) : Model σ α :=
  ⟨m.specs, m.items.map fun p => (p.1, ⟨p.2.values.map Feature.strip, [], []⟩)⟩

/-- Condition on the stored values of one feature entry under which
serialization is faithful: the name actually holds values, a singleton holds
exactly one, a populated multi-valued name does not demand UIDs (the
serialized form has none to offer), and every value passes its schema. -/
def SpecEntry.okValues {σ α : Type} (validate : σ → α → Bool) (se : SpecEntry σ)
    (vs : List α) : Bool :=
  !vs.isEmpty &&
  (if se.singleton then decide (vs.length = 1) else !se.uidRequired) &&
  vs.all fun v => validate se.schema v

/-- Round-trip readiness of a feature container: distinct stored names, no
reserved `$`-prefixed names, every stored name registered with values
satisfying `SpecEntry.okValues`.  All conditions hold for every container
populated through `set`/`add` on names outside the reserved namespace. -/
def Feature.rtReady {σ α : Type} (validate : σ → α → Bool) (f : Feature σ α) : Bool :=
  keysNodup f.items &&
  f.items.all fun p =>
    !startsWithDollar p.1 &&
    match alookup f.specs p.1 with
    | some se => se.okValues validate p.2.values
    | none => false

/-- Round-trip readiness of a model container: distinct stored names outside
the reserved namespace, every stored name registered, at least one stored
feature per stored name, populated multi-valued feature names not demanding
UIDs, and every stored feature bound to the registered sub-specification and
itself round-trip ready. -/
def Model.rtReady {σ α : Type} [DecidableEq σ] (validate : σ → α → Bool)
    (m : Model σ α) : Bool :=
  keysNodup m.items &&
  m.items.all fun p =>
    !startsWithDollar p.1 &&
    match alookup m.specs p.1 with
    | none => false
    | some e =>
        !p.2.values.isEmpty &&
        (e.singleton || !e.uidRequired) &&
        p.2.values.all fun f =>
          decide (f.specs = e.fspec) && f.rtReady validate

section Fixtures

/-- Trivial external validator used by the concrete witnesses: accepts
every value. -/
def valAll : Unit → Nat → Bool := fun _ _ => true

/-- Concrete singleton property entry. -/
def seS : SpecEntry Unit := ⟨(), true, 0, "", false, none⟩

/-- Concrete non-singleton property entry. -/
def seM : SpecEntry Unit := ⟨(), false, 0, "", false, none⟩

/-- Concrete non-singleton property entry with `max_items = 3`. -/
def seMax3 : SpecEntry Unit := ⟨(), false, 0, "", false, some 3⟩

/-- Feature container with an empty bound registry (counterexample input
for C9). -/
def fEmptySpecs : Feature Unit Nat := ⟨[], []⟩

/-- Feature container bound to one singleton name and one multi-valued
name, nothing stored yet. -/
def fAB : Feature Unit Nat := ⟨[("a", seS), ("b", seM)], []⟩

/-- Feature container bound to a multi-valued name capped at three items,
already holding three values. -/
def fCap : Feature Unit Nat :=
  ⟨[("b", seMax3)], [("b", ⟨[11, 22, 33], [], []⟩)]⟩

/-- Concrete model specification entry: a singleton feature with one
optional singleton property. -/
def mseStudy : MSpecEntry Unit := ⟨[("static", seS)], true, 0, "", false⟩

/-- Model container bound to the single feature name `study`, empty
(failing input for C3). -/
def mStudy : Model Unit Nat := ⟨[("study", mseStudy)], []⟩

/-- ItemDict holding two values under `a`, the UID `u` assigned to the
most recent one (counterexample input for C8). -/
def dTwo : ItemDict Nat :=
  [("a", ⟨[1, 2], [("u", 1)], [((1 : Int), "u")]⟩)]

/-- Property registry of the `wing` feature of the spec scenario (§8):
`B` multi-valued with `required = 3` and `max_items = 3`. -/
def fspecB : List (String × SpecEntry Unit) :=
  [("B", ⟨(), false, 3, "", false, some 3⟩)]

/-- Model-level entry for the `wing` feature: multi-valued, `required = 1`. -/
def mseWing : MSpecEntry Unit := ⟨fspecB, false, 1, "", false⟩

/-- A `wing` feature with only two `B` values (required-check must fail). -/
def wingF2 : Feature Unit Nat := ⟨fspecB, [("B", ⟨[11, 22], [], []⟩)]⟩

/-- A `wing` feature with the full three `B` values. -/
def wingF3 : Feature Unit Nat := ⟨fspecB, [("B", ⟨[11, 22, 33], [], []⟩)]⟩

/-- Model holding one under-populated `wing` feature. -/
def mWing2 : Model Unit Nat :=
  ⟨[("wing", mseWing)], [("wing", ⟨[wingF2], [], []⟩)]⟩

/-- Model holding one fully populated `wing` feature. -/
def mWing3 : Model Unit Nat :=
  ⟨[("wing", mseWing)], [("wing", ⟨[wingF3], [], []⟩)]⟩

/-- Concrete user compute step for the C1 witness. -/
def computeEx : Model Unit Nat → Except PyError Nat := fun _ => .ok 0

/-- Multi-valued property entry that demands a UID on every `add`. -/
def seUR : SpecEntry Unit := ⟨(), false, 0, "", true, none⟩

/-- Feature holding one value with a UID under the UID-required entry `p`. -/
def fUR : Feature Unit Nat :=
  ⟨[("p", seUR)], [("p", ⟨[7], [("pu", 0)], [((0 : Int), "pu")]⟩)]⟩

/-- Singleton model entry whose feature registry is `fUR.specs`. -/
def mseUR : MSpecEntry Unit := ⟨[("p", seUR)], true, 0, "", false⟩

/-- Model populated under a UID-required property entry (counterexample
input for C7: serialization drops UIDs, so re-population fails). -/
def mUR : Model Unit Nat := ⟨[("F", mseUR)], [("F", ⟨[fUR], [], []⟩)]⟩

/-- Feature for the singleton `study` slot, one property set. -/
def fStudy1 : Feature Unit Nat := ⟨[("static", seS)], [("static", ⟨[1], [], []⟩)]⟩

/-- Model mixing a singleton feature (`study`) and a multi-valued feature
(`wing`, two stored containers, one with a model-level UID) for the C7
witness. -/
def mMix : Model Unit Nat :=
  ⟨[("study", mseStudy), ("wing", mseWing)],
   [("study", ⟨[fStudy1], [], []⟩),
    ("wing", ⟨[wingF3, wingF2], [("w1", 0)], [((0 : Int), "w1")]⟩)]⟩

end Fixtures

/-! ### Association-list lemmas -/

theorem alookup_aupdate_self {κ β : Type} [DecidableEq κ] (l : List (κ × β))
    (k : κ) (v : β) : alookup (aupdate l k v) k = some v := by
  induction l with
  | nil => simp [aupdate, alookup]
  | cons p rest ih =>
      obtain ⟨k1, v1⟩ := p
      by_cases h : k1 = k <;> simp [aupdate, alookup, h, ih]

theorem alookup_aupdate_ne {κ β : Type} [DecidableEq κ] (l : List (κ × β))
    {k key : κ} (v : β) (h : k ≠ key) :
    alookup (aupdate l k v) key = alookup l key := by
  induction l with
  | nil => simp [aupdate, alookup, h]
  | cons p rest ih =>
      obtain ⟨k1, v1⟩ := p
      by_cases h1 : k1 = k
      · subst h1; simp [aupdate, alookup, h]
      · simp [aupdate, alookup, h1, ih]

theorem alookup_append_of_none {κ β : Type} [DecidableEq κ]
    {l1 : List (κ × β)} (l2 : List (κ × β)) {k : κ} (h : alookup l1 k = none) :
    alookup (l1 ++ l2) k = alookup l2 k := by
  induction l1 with
  | nil => simp
  | cons p rest ih =>
      obtain ⟨k1, v1⟩ := p
      by_cases h1 : k1 = k
      · simp [alookup, h1] at h
      · simp only [alookup, h1, if_false, List.cons_append] at h ⊢
        simp [alookup, h1]
        exact ih h

theorem alookup_append_of_some {κ β : Type} [DecidableEq κ]
    {l1 : List (κ × β)} (l2 : List (κ × β)) {k : κ} {v : β}
    (h : alookup l1 k = some v) : alookup (l1 ++ l2) k = some v := by
  induction l1 with
  | nil => simp [alookup] at h
  | cons p rest ih =>
      obtain ⟨k1, v1⟩ := p
      by_cases h1 : k1 = k
      · simp only [alookup, h1, if_true] at h ⊢
        simp [alookup, h1, h]
      · simp only [alookup, h1, if_false] at h ⊢
        simp [alookup, h1]
        exact ih h

theorem aerase_of_none {κ β : Type} [DecidableEq κ] {l : List (κ × β)} {k : κ}
    (h : alookup l k = none) : aerase l k = l := by
  induction l with
  | nil => rfl
  | cons p rest ih =>
      obtain ⟨k1, v1⟩ := p
      by_cases h1 : k1 = k
      · simp [alookup, h1] at h
      · simp only [alookup, h1, if_false] at h
        simp [aerase, h1, ih h]

theorem alookup_aerase_self {κ β : Type} [DecidableEq κ] {l : List (κ × β)}
    (k : κ) (h : keysNodup l = true) : alookup (aerase l k) k = none := by
  induction l with
  | nil => rfl
  | cons p rest ih =>
      obtain ⟨k1, v1⟩ := p
      simp only [keysNodup, Bool.and_eq_true, Option.isNone_iff_eq_none] at h
      by_cases h1 : k1 = k
      · subst h1; simpa [aerase] using h.1
      · simp [aerase, alookup, h1, ih h.2]

theorem alookup_aerase_ne {κ β : Type} [DecidableEq κ] (l : List (κ × β))
    {k key : κ} (h : k ≠ key) : alookup (aerase l k) key = alookup l key := by
  induction l with
  | nil => rfl
  | cons p rest ih =>
      obtain ⟨k1, v1⟩ := p
      by_cases h1 : k1 = k
      · subst h1; simp [aerase, alookup, h]
      · simp [aerase, alookup, h1, ih]

theorem keysNodup_aupdate {κ β : Type} [DecidableEq κ] (l : List (κ × β))
    (k : κ) (v : β) (h : keysNodup l = true) :
    keysNodup (aupdate l k v) = true := by
  induction l with
  | nil => simp [aupdate, keysNodup, alookup]
  | cons p rest ih =>
      obtain ⟨k1, v1⟩ := p
      simp only [keysNodup, Bool.and_eq_true, Option.isNone_iff_eq_none] at h
      by_cases h1 : k1 = k
      · subst h1
        simp [aupdate, keysNodup, h.1, h.2]
      · simp only [aupdate, h1, if_false, keysNodup, Bool.and_eq_true,
          Option.isNone_iff_eq_none]
        exact ⟨by rw [alookup_aupdate_ne rest v (fun hk => h1 hk.symm)]; exact h.1,
          ih h.2⟩

theorem keysNodup_aerase {κ β : Type} [DecidableEq κ] (l : List (κ × β))
    (k : κ) (h : keysNodup l = true) : keysNodup (aerase l k) = true := by
  induction l with
  | nil => rfl
  | cons p rest ih =>
      obtain ⟨k1, v1⟩ := p
      simp only [keysNodup, Bool.and_eq_true, Option.isNone_iff_eq_none] at h
      by_cases h1 : k1 = k
      · subst h1; simpa [aerase] using h.2
      · simp only [aerase, h1, if_false, keysNodup, Bool.and_eq_true,
          Option.isNone_iff_eq_none]
        refine ⟨?_, ih h.2⟩
        by_cases h2 : k = k1
        · exact absurd h2.symm h1
        · rw [alookup_aerase_ne rest h2]; exact h.1

theorem keysNodup_append_single {κ β : Type} [DecidableEq κ]
    {l : List (κ × β)} {k : κ} (v : β) (h : alookup l k = none)
    (hnd : keysNodup l = true) : keysNodup (l ++ [(k, v)]) = true := by
  induction l with
  | nil => simp [keysNodup, alookup]
  | cons p rest ih =>
      obtain ⟨k1, v1⟩ := p
      simp only [alookup, keysNodup, Bool.and_eq_true,
        Option.isNone_iff_eq_none] at h hnd
      by_cases h1 : k1 = k
      · simp [h1] at h
      · simp only [h1, if_false] at h
        have hne : ¬k = k1 := fun hk => h1 hk.symm
        have hmem : alookup (rest ++ [(k, v)]) k1 = none := by
          rw [alookup_append_of_none [(k, v)] hnd.1]
          simp [alookup, hne]
        simp only [List.cons_append, keysNodup, Bool.and_eq_true,
          Option.isNone_iff_eq_none]
        exact ⟨hmem, ih h hnd.2⟩

/-! ### ItemDict lemmas -/

theorem getEntry_appendItem_self {α : Type} (d : ItemDict α) (k : String) (v : α) :
    (d.appendItem k v).getEntry k =
      ⟨(d.getEntry k).values ++ [v], (d.getEntry k).uidToIdx, (d.getEntry k).idxToUid⟩ := by
  unfold ItemDict.appendItem ItemDict.getEntry
  cases h : alookup d k with
  | none =>
      rw [alookup_append_of_none _ h]
      simp [alookup, h, ItemEntry.empty]
  | some e => rw [alookup_aupdate_self]; simp [h]

theorem getEntry_appendItem_ne {α : Type} (d : ItemDict α) {k key : String}
    (v : α) (h : k ≠ key) : (d.appendItem k v).getEntry key = d.getEntry key := by
  unfold ItemDict.appendItem ItemDict.getEntry
  cases h1 : alookup d k with
  | none =>
      cases h2 : alookup d key with
      | none => rw [alookup_append_of_none _ h2]; simp [alookup, h]
      | some e2 => rw [alookup_append_of_some _ h2]
  | some e => rw [alookup_aupdate_ne _ _ h]

theorem keysNodup_appendItem {α : Type} (d : ItemDict α) (k : String) (v : α)
    (h : keysNodup d = true) : keysNodup (d.appendItem k v) = true := by
  unfold ItemDict.appendItem
  cases h1 : alookup d k with
  | none => exact keysNodup_append_single _ h1 h
  | some e => exact keysNodup_aupdate _ _ _ h

theorem get?_last {α : Type} : ∀ (l : List α) (n : Nat), l.length = n + 1 →
    l.get? n = l.getLast? := by
  intro l
  induction l with
  | nil => intro n h; simp at h
  | cons a t ih =>
      intro n h
      cases t with
      | nil =>
          have hn : n = 0 := by simpa using h
          subst hn; rfl
      | cons b t2 =>
          cases n with
          | zero => simp at h
          | succ m =>
              have hlen : (b :: t2).length = m + 1 := by simpa using h
              have : (a :: b :: t2).get? (m + 1) = (b :: t2).get? m := rfl
              rw [this, ih m hlen, List.getLast?_cons_cons]

/-! ### C6 — default UID assignment and duplicate UIDs -/

/-- C6: for an `ItemStore` name holding at least one appended value,
`assign_uid` with the default ordinal argument binds the UID to the most
recently appended ordinal, after which `get_by_uid` returns exactly the
value stored at that ordinal; a second `assign_uid` for the same name with
the same UID fails with the duplicate-entry `KeyError` regardless of the
target ordinal, even the same one. -/
theorem c6_assignUid_last_then_duplicate {α : Type} (d : ItemDict α)
    (k uid : String) (e : ItemEntry α) (vlast : α)
    (he : alookup d k = some e)
    (hlast : e.values.getLast? = some vlast)
    (hfree : alookup e.uidToIdx uid = none) :
    ∃ d2, d.assignUid k uid (-1) = .ok d2 ∧
      d2.getByUid k uid = .ok vlast ∧
      ∀ j : Int, d2.assignUid k uid j =
        .error (.keyError (uid ++ ": entry already defined")) := by
  have hne : e.values ≠ [] := by
    intro h0; rw [h0] at hlast; simp at hlast
  obtain ⟨n, hn⟩ : ∃ n, e.values.length = n + 1 := by
    cases hv : e.values with
    | nil => exact absurd hv hne
    | cons a l => exact ⟨l.length, by simp [hv]⟩
  have hi : ((e.values.length : Int) - 1) = (n : Int) := by
    rw [hn]; push_cast; ring
  set e2 : ItemEntry α :=
    ⟨e.values, e.uidToIdx ++ [(uid, (n : Int))], aupdate e.idxToUid (n : Int) uid⟩
    with he2
  have hfree2 : (alookup e.uidToIdx uid).isSome = false := by rw [hfree]; rfl
  have hstep : d.assignUid k uid (-1) = .ok (aupdate d k e2) := by
    simp only [ItemDict.assignUid, he, hfree2, Bool.false_eq_true, if_false,
      if_pos (show (-1 : Int) < 0 by decide), hi, he2]
  have hl2 : alookup (aupdate d k e2) k = some e2 := alookup_aupdate_self d k e2
  have huid2 : alookup e2.uidToIdx uid = some (n : Int) := by
    rw [he2]
    show alookup (e.uidToIdx ++ [(uid, (n : Int))]) uid = some (n : Int)
    rw [alookup_append_of_none _ hfree]
    simp [alookup]
  have hord : lookupOrd e.values (n : Int) = some vlast := by
    unfold lookupOrd
    rw [if_neg (by omega : ¬((n : Int) < 0))]
    rw [Int.toNat_natCast, get?_last e.values n hn, hlast]
  refine ⟨aupdate d k e2, hstep, ?_, ?_⟩
  · simp only [ItemDict.getByUid, hl2, huid2, hord]
  · intro j
    have hsome : (alookup e2.uidToIdx uid).isSome = true := by rw [huid2]; rfl
    simp only [ItemDict.assignUid, hl2, hsome, if_true]

/-- C6 witness: on the concrete store `dTwo` (name `a` holding `1, 2` with
UID `u` on ordinal 1), assigning the fresh UID `w` with the default ordinal
binds it to ordinal 1, `get_by_uid` returns `2`, and rebinding `w` fails for
every target ordinal. -/
theorem c6_witness :
    ∃ d2, dTwo.assignUid "a" "w" (-1) = .ok d2 ∧
      d2.getByUid "a" "w" = .ok 2 ∧
      ∀ j : Int, d2.assignUid "a" "w" j =
        .error (.keyError ("w" ++ ": entry already defined")) :=
  c6_assignUid_last_then_duplicate dTwo "a" "w"
    ⟨[1, 2], [("u", 1)], [((1 : Int), "u")]⟩ 2 (by rfl) (by rfl) (by rfl)

/-! ### Success-shape lemmas for `set` and `add` -/

theorem foldlM_cons_step {s β : Type} (g : s → β → Except PyError s)
    (f f1 : s) (v : β) (rest : List β) (h : g f v = .ok f1) :
    List.foldlM g f (v :: rest) = List.foldlM g f1 rest := by
  show g f v >>= (fun x => List.foldlM g x rest) = _
  rw [h]
  rfl

theorem set_ok {σ α : Type} (validate : σ → α → Bool) (f : Feature σ α)
    {key : String} {e : SpecEntry σ} (v : α)
    (he : alookup f.specs key = some e) (hsing : e.singleton = true)
    (hv : validate e.schema v = true) :
    Feature.set validate f key v =
      .ok ⟨f.specs, (f.items.delItem key).appendItem key v⟩ := by
  simp [Feature.set, he, hsing, hv]

theorem add_ok {σ α : Type} (validate : σ → α → Bool) (f : Feature σ α)
    {key : String} {e : SpecEntry σ} (v : α)
    (he : alookup f.specs key = some e) (hs : e.singleton = false)
    (hu : e.uidRequired = false) (hv : validate e.schema v = true) :
    Feature.add validate f key v none =
      .ok ⟨f.specs, f.items.appendItem key v⟩ := by
  simp [Feature.add, he, hs, hu, hv]

theorem getEntry_set_items {α : Type} (items : ItemDict α) (key : String)
    (v : α) (hnd : keysNodup items = true) :
    ((items.delItem key).appendItem key v).getEntry key = ⟨[v], [], []⟩ := by
  have h1 : alookup (items.delItem key) key = none := alookup_aerase_self key hnd
  rw [getEntry_appendItem_self]
  unfold ItemDict.getEntry
  rw [h1]
  rfl

theorem keysNodup_set_items {α : Type} (items : ItemDict α) (key : String)
    (v : α) (hnd : keysNodup items = true) :
    keysNodup ((items.delItem key).appendItem key v) = true :=
  keysNodup_appendItem _ _ _ (keysNodup_aerase _ _ hnd)

/-! ### C4 — singleton `set` overwrite semantics -/

/-- C4: for a registered singleton name, any non-empty sequence of `set`
calls with schema-valid values succeeds (re-calling `set` is not an error)
and leaves exactly one stored value for the name — the value of the last
call — and `get` then returns that value directly, not wrapped in a
sequence. -/
theorem c4_singleton_set_overwrites {σ α : Type} (validate : σ → α → Bool) :
    ∀ (vs : List α) (f : Feature σ α) (key : String) (vlast : α)
      (e : SpecEntry σ),
      alookup f.specs key = some e → e.singleton = true →
      (∀ v ∈ vs, validate e.schema v = true) →
      keysNodup f.items = true →
      vs.getLast? = some vlast →
      ∃ f2, Feature.setMany validate f key vs = .ok f2 ∧
        (f2.items.getEntry key).values = [vlast] ∧
        Feature.get f2 key .noneV none = .ok (.val vlast) := by
  intro vs
  induction vs with
  | nil => intro _ _ _ _ _ _ _ _ hlast; simp at hlast
  | cons v rest ih =>
      intro f key vlast e he hsing hall hnd hlast
      have hv : validate e.schema v = true := hall v (by simp)
      have hstep := set_ok validate f v he hsing hv
      have hnd1 : keysNodup ((f.items.delItem key).appendItem key v) = true :=
        keysNodup_set_items _ _ _ hnd
      have hone :
          (((f.items.delItem key).appendItem key v).getEntry key).values = [v] := by
        rw [getEntry_set_items _ _ _ hnd]
      cases rest with
      | nil =>
          have hveq : v = vlast := by
            rw [List.getLast?_singleton] at hlast
            exact Option.some.inj hlast
          subst hveq
          refine ⟨⟨f.specs, (f.items.delItem key).appendItem key v⟩, ?_, hone, ?_⟩
          · exact foldlM_cons_step _ f _ v [] hstep
          · simp only [Feature.get, he, hone, hsing, if_true]
      | cons b t =>
          have hlast2 : (b :: t).getLast? = some vlast := by
            rw [List.getLast?_cons_cons] at hlast
            exact hlast
          obtain ⟨f2, hrun, hvals, hget⟩ :=
            ih ⟨f.specs, (f.items.delItem key).appendItem key v⟩ key vlast e he
              hsing (fun w hw => hall w (List.mem_cons_of_mem v hw)) hnd1 hlast2
          refine ⟨f2, ?_, hvals, hget⟩
          calc Feature.setMany validate f key (v :: b :: t)
              = Feature.setMany validate
                  ⟨f.specs, (f.items.delItem key).appendItem key v⟩ key (b :: t) :=
                foldlM_cons_step _ f _ v (b :: t) hstep
            _ = .ok f2 := hrun

/-- C4 witness: on the container `fAB`, setting the singleton name `a`
first to `1` then to `2` succeeds and leaves the single value `2`, which
`get` returns unwrapped. -/
theorem c4_witness :
    ∃ f2, Feature.setMany valAll fAB "a" [1, 2] = .ok f2 ∧
      (f2.items.getEntry "a").values = [2] ∧
      Feature.get f2 "a" .noneV none = .ok (.val 2) :=
  c4_singleton_set_overwrites valAll [1, 2] fAB "a" 2 seS
    (by rfl) (by rfl) (by intro v _; rfl) (by rfl) (by rfl)

/-! ### C5 — non-singleton `add`, `get` and `iterate` -/

theorem addMany_ok {σ α : Type} (validate : σ → α → Bool) :
    ∀ (vs : List α) (f : Feature σ α) (key : String) (e : SpecEntry σ),
      alookup f.specs key = some e → e.singleton = false →
      e.uidRequired = false →
      (∀ v ∈ vs, validate e.schema v = true) →
      ∃ f2, Feature.addMany validate f key vs = .ok f2 ∧
        f2.specs = f.specs ∧
        (f2.items.getEntry key).values = (f.items.getEntry key).values ++ vs := by
  intro vs
  induction vs with
  | nil =>
      intro f key e he hs hu _
      exact ⟨f, rfl, rfl, by simp⟩
  | cons v rest ih =>
      intro f key e he hs hu hall
      have hv : validate e.schema v = true := hall v (by simp)
      have hstep := add_ok validate f v he hs hu hv
      obtain ⟨f2, hrun, hspecs, hvals⟩ :=
        ih ⟨f.specs, f.items.appendItem key v⟩ key e he hs hu
          (fun w hw => hall w (List.mem_cons_of_mem v hw))
      refine ⟨f2, ?_, hspecs, ?_⟩
      · calc Feature.addMany validate f key (v :: rest)
            = Feature.addMany validate ⟨f.specs, f.items.appendItem key v⟩ key rest :=
              foldlM_cons_step _ f _ v rest hstep
          _ = .ok f2 := hrun
      · rw [hvals]
        show ((f.items.appendItem key v).getEntry key).values ++ rest =
          (f.items.getEntry key).values ++ v :: rest
        rw [getEntry_appendItem_self]
        simp

/-- C5: for a registered non-singleton name never written before, `n`
successful `add` calls followed by `get` without a UID return the sequence
of exactly those `n` values in insertion order, and `iterate` yields the
same sequence.  Each Python `iter()` call builds a fresh generator over a
snapshot of the stored values, so iterating twice yields the same result;
in the embedding `iter` is a pure function of the container and the two
iterations are literally the same list. -/
theorem c5_add_get_iterate {σ α : Type} (validate : σ → α → Bool)
    (f : Feature σ α) (key : String) (vs : List α) (e : SpecEntry σ)
    (he : alookup f.specs key = some e) (hs : e.singleton = false)
    (hu : e.uidRequired = false)
    (hall : ∀ v ∈ vs, validate e.schema v = true)
    (hfresh : (f.items.getEntry key).values = [])
    (hne : vs ≠ []) :
    ∃ f2, Feature.addMany validate f key vs = .ok f2 ∧
      Feature.get f2 key .noneV none = .ok (.seq vs) ∧
      Feature.iter f2 key = .ok vs ∧
      Feature.len f2 key = vs.length := by
  obtain ⟨f2, hrun, hspecs, hvals⟩ := addMany_ok validate vs f key e he hs hu hall
  rw [hfresh, List.nil_append] at hvals
  have he2 : alookup f2.specs key = some e := by rw [hspecs]; exact he
  refine ⟨f2, hrun, ?_, ?_, ?_⟩
  · cases hv : vs with
    | nil => exact absurd hv hne
    | cons a l =>
        rw [hv] at hvals
        simp [Feature.get, he2, hvals, hs]
  · simp [Feature.iter, he2, hvals, hs]
  · simp [Feature.len, hvals]

/-- C5 witness: on the container `fAB`, three `add` calls for the
multi-valued name `b` succeed; `get` returns the sequence `[4, 5, 6]` in
insertion order, `iterate` yields the same sequence, and the count is 3. -/
theorem c5_witness :
    ∃ f2, Feature.addMany valAll fAB "b" [4, 5, 6] = .ok f2 ∧
      Feature.get f2 "b" .noneV none = .ok (.seq [4, 5, 6]) ∧
      Feature.iter f2 "b" = .ok [4, 5, 6] ∧
      Feature.len f2 "b" = 3 :=
  c5_add_get_iterate valAll fAB "b" [4, 5, 6] seM
    (by rfl) (by rfl) (by rfl) (by intro v _; rfl) (by rfl) (by decide)

/-! ### C2 — `add` beyond `max_items` -/

/-- C2 (against the spec-modelled `addChecked`, the `max_items` enforcement
being absent from the `src/` snapshot): for a registered non-singleton name
with a finite `max_items` limit, an `add` whose post-insert count would
exceed the limit fails with `CardinalityExceeded`, and the stored count for
the name remains at `max_items` — the value is not inserted. -/
theorem c2_add_beyond_maxItems {σ α : Type} (validate : σ → α → Bool)
    (f : Feature σ α) (key : String) (v : α) (e : SpecEntry σ) (m : Nat)
    (he : alookup f.specs key = some e)
    (hs : e.singleton = false) (hu : e.uidRequired = false)
    (hv : validate e.schema v = true)
    (hm : e.maxItems = some m)
    (hc : Feature.len f key = m) :
    Feature.addChecked validate f key v none = .error (.cardinalityExceeded key m) ∧
    Feature.len f key = m := by
  refine ⟨?_, hc⟩
  have hcount : (f.items.getEntry key).values.length = m := hc
  simp only [Feature.addChecked, he, hs, hu, hv, hm, hcount, Option.isNone_none,
    Bool.and_true, Bool.false_eq_true, if_false, Bool.true_eq_false]
  rw [if_pos (Nat.lt_succ_self m)]

/-- C2 witness: on the concrete container `fCap` (name `b`, `max_items = 3`,
already holding three values), a fourth `add` fails with
`CardinalityExceeded` and the count stays at three. -/
theorem c2_witness :
    Feature.addChecked valAll fCap "b" 44 none =
      .error (.cardinalityExceeded "b" 3) ∧ Feature.len fCap "b" = 3 :=
  c2_add_beyond_maxItems valAll fCap "b" 44 seMax3 3
    (by rfl) (by rfl) (by rfl) (by rfl) (by rfl) (by rfl)

/-! ### C9 — unknown names in the generic protocol -/

/-- C9 counterexample: `length` does NOT raise for a name missing from the
bound registry — on a container with an empty registry it returns `0` for
the unseen name `x` (its return type is a plain count; the source reads the
item store directly, which supplies an empty entry, and never consults the
specification). -/
theorem c9_counterexample :
    alookup fEmptySpecs.specs "x" = none ∧ Feature.len fEmptySpecs "x" = 0 :=
  ⟨rfl, rfl⟩

/-- C9 (amended): for a name not present in the bound registry, `set`,
`add`, `get` and `iterate` each raise a `KeyError`; `length` raises
nothing — it never consults the registry and returns the stored count,
which is `0` for a name never written. -/
theorem c9_unknown_key {σ α : Type} (validate : σ → α → Bool)
    (f : Feature σ α) (key : String) (v : α) (uid : Option String)
    (default : PyVal α)
    (hk : alookup f.specs key = none)
    (hi : alookup f.items key = none) :
    (∃ msg, Feature.set validate f key v = .error (.keyError msg)) ∧
    (∃ msg, Feature.add validate f key v uid = .error (.keyError msg)) ∧
    (∃ msg, Feature.get f key default uid = .error (.keyError msg)) ∧
    (∃ msg, Feature.iter f key = .error (.keyError msg)) ∧
    Feature.len f key = 0 := by
  refine ⟨⟨key ++ " is not in specification", ?_⟩,
    ⟨key ++ " is not in specification", ?_⟩,
    ⟨key ++ " is not in specification", ?_⟩, ⟨key, ?_⟩, ?_⟩ <;>
    simp [Feature.set, Feature.add, Feature.get, Feature.iter, Feature.len,
      ItemDict.getEntry, ItemEntry.empty, hk, hi]

/-- C9 witness: the amended statement evaluated on the concrete container
`fAB` and the unregistered, never-written name `z`. -/
theorem c9_witness :
    (∃ msg, Feature.set valAll fAB "z" 1 = .error (.keyError msg)) ∧
    (∃ msg, Feature.add valAll fAB "z" 1 none = .error (.keyError msg)) ∧
    (∃ msg, Feature.get fAB "z" .noneV none = .error (.keyError msg)) ∧
    (∃ msg, Feature.iter fAB "z" = .error (.keyError msg)) ∧
    Feature.len fAB "z" = 0 :=
  c9_unknown_key valAll fAB "z" 1 none .noneV (by rfl) (by rfl)

/-! ### C1 — required-check before the compute step -/

theorem all_false_exists {β : Type} (p : β → Bool) :
    ∀ l : List β, l.all p = false → ∃ x, x ∈ l ∧ p x = false := by
  intro l
  induction l with
  | nil => intro h; simp at h
  | cons x rest ih =>
      intro h
      by_cases hx : p x = false
      · exact ⟨x, by simp, hx⟩
      · have hx2 : p x = true := by
          cases hpx : p x
          · exact absurd hpx hx
          · rfl
        simp only [List.all_cons, hx2, Bool.true_and] at h
        obtain ⟨y, hy, hpy⟩ := ih h
        exact ⟨y, List.mem_cons_of_mem x hy, hpy⟩

theorem if_bool_false {γ : Type} {c : Bool} (a b : γ) (h : c = false) :
    (if c = true then a else b) = b := by
  subst h; rfl

theorem if_bool_true {γ : Type} {c : Bool} (a b : γ) (h : c = true) :
    (if c = true then a else b) = a := by
  subst h; rfl

theorem forM_ok {β : Type} (g : β → Except PyError Unit) :
    ∀ l : List β, (∀ x ∈ l, g x = .ok ()) → l.forM g = .ok () := by
  intro l
  induction l with
  | nil => intro _; rfl
  | cons x rest ih =>
      intro h
      show g x >>= (fun _ => rest.forM g) = .ok ()
      rw [h x (by simp)]
      exact ih fun y hy => h y (List.mem_cons_of_mem x hy)

theorem forM_error {β : Type} (g : β → Except PyError Unit) :
    ∀ l : List β, (∃ x, x ∈ l ∧ ∃ e, g x = .error e) →
      ∃ x err, x ∈ l ∧ g x = .error err ∧ l.forM g = .error err := by
  intro l
  induction l with
  | nil => rintro ⟨x, hx, _⟩; simp at hx
  | cons x rest ih =>
      rintro ⟨y, hy, e, hye⟩
      cases hgx : g x with
      | error err =>
          refine ⟨x, err, by simp, hgx, ?_⟩
          show g x >>= (fun _ => rest.forM g) = .error err
          rw [hgx]
          rfl
      | ok u =>
          cases u
          have hyr : y ∈ rest := by
            rcases List.mem_cons.mp hy with h1 | h1
            · subst h1; rw [hgx] at hye; exact Except.noConfusion hye
            · exact h1
          obtain ⟨z, err, hz, herr, hrun⟩ := ih ⟨y, hyr, e, hye⟩
          refine ⟨z, err, List.mem_cons_of_mem x hz, herr, ?_⟩
          show g x >>= (fun _ => rest.forM g) = .error err
          rw [hgx]
          exact hrun

theorem featureCheck_go_ok {σ α : Type} (items : ItemDict α) :
    ∀ specs : List (String × SpecEntry σ),
      (specs.all fun p =>
        decide (p.2.required ≤ (items.getEntry p.1).values.length)) = true →
      Model.featureRequiredCheck.go items specs = .ok () := by
  intro specs
  induction specs with
  | nil => intro _; rfl
  | cons p rest ih =>
      obtain ⟨k, se⟩ := p
      intro h
      simp only [List.all_cons, Bool.and_eq_true, decide_eq_true_eq] at h
      have hnlt : ¬((items.getEntry k).values.length < se.required) := by
        have := h.1; omega
      have hcond : (decide (0 < se.required) &&
          decide ((items.getEntry k).values.length < se.required)) = false := by
        rw [decide_eq_false hnlt, Bool.and_false]
      simp only [Model.featureRequiredCheck.go]
      rw [if_bool_false _ _ hcond]
      exact ih h.2

theorem featureCheck_go_error {σ α : Type} (items : ItemDict α) :
    ∀ specs : List (String × SpecEntry σ),
      (specs.all fun p =>
        decide (p.2.required ≤ (items.getEntry p.1).values.length)) = false →
      ∃ name se, (name, se) ∈ specs ∧
        (items.getEntry name).values.length < se.required ∧
        Model.featureRequiredCheck.go items specs =
          .error (.requirementNotMet name se.required
            ((items.getEntry name).values.length)) := by
  intro specs
  induction specs with
  | nil => intro h; simp at h
  | cons p rest ih =>
      obtain ⟨k, se⟩ := p
      intro h
      by_cases hk : se.required ≤ (items.getEntry k).values.length
      · have hnlt : ¬((items.getEntry k).values.length < se.required) := by omega
        have hcond : (decide (0 < se.required) &&
            decide ((items.getEntry k).values.length < se.required)) = false := by
          rw [decide_eq_false hnlt, Bool.and_false]
        have hall : (rest.all fun p =>
            decide (p.2.required ≤ (items.getEntry p.1).values.length)) = false := by
          simp only [List.all_cons, decide_eq_true hk, Bool.true_and] at h
          exact h
        obtain ⟨name, se2, hmem, hlt, hgo⟩ := ih hall
        refine ⟨name, se2, List.mem_cons_of_mem _ hmem, hlt, ?_⟩
        simp only [Model.featureRequiredCheck.go]
        rw [if_bool_false _ _ hcond]
        exact hgo
      · have hlt : (items.getEntry k).values.length < se.required := by omega
        have hpos : 0 < se.required := by omega
        have hcond : (decide (0 < se.required) &&
            decide ((items.getEntry k).values.length < se.required)) = true := by
          rw [decide_eq_true hpos, decide_eq_true hlt]
          rfl
        refine ⟨k, se, by simp, hlt, ?_⟩
        simp only [Model.featureRequiredCheck.go]
        rw [if_bool_true _ _ hcond]

theorem featureCheck_ok {σ α : Type} (f : Feature σ α)
    (h : Model.featureRequiredOk f = true) :
    Model.featureRequiredCheck f = .ok () :=
  featureCheck_go_ok f.items f.specs h

theorem featureCheck_error {σ α : Type} (f : Feature σ α)
    (h : Model.featureRequiredOk f = false) :
    ∃ name se, (name, se) ∈ f.specs ∧
      (f.items.getEntry name).values.length < se.required ∧
      Model.featureRequiredCheck f =
        .error (.requirementNotMet name se.required
          ((f.items.getEntry name).values.length)) :=
  featureCheck_go_error f.items f.specs h

theorem requiredCheck_go_ok {σ α : Type} (items : ItemDict (Feature σ α)) :
    ∀ specs : List (String × MSpecEntry σ),
      (specs.all fun p =>
        decide (p.2.required ≤ (items.getEntry p.1).values.length) &&
          ((items.getEntry p.1).values.all Model.featureRequiredOk)) = true →
      Model.requiredCheck.go items specs = .ok () := by
  intro specs
  induction specs with
  | nil => intro _; rfl
  | cons p rest ih =>
      obtain ⟨k, me⟩ := p
      intro h
      simp only [List.all_cons, Bool.and_eq_true, decide_eq_true_eq] at h
      obtain ⟨⟨hcount, hfeat⟩, hrest⟩ := h
      have hnlt : ¬((items.getEntry k).values.length < me.required) := by omega
      have hcond : (decide (0 < me.required) &&
          decide ((items.getEntry k).values.length < me.required)) = false := by
        rw [decide_eq_false hnlt, Bool.and_false]
      simp only [Model.requiredCheck.go]
      rw [if_bool_false _ _ hcond]
      show (items.getEntry k).values.forM Model.featureRequiredCheck >>=
        (fun _ => Model.requiredCheck.go items rest) = .ok ()
      rw [forM_ok _ _ (fun f hf => featureCheck_ok f (List.all_eq_true.mp hfeat f hf))]
      exact ih hrest

theorem requiredCheck_go_error {σ α : Type} (items : ItemDict (Feature σ α)) :
    ∀ specs : List (String × MSpecEntry σ),
      (specs.all fun p =>
        decide (p.2.required ≤ (items.getEntry p.1).values.length) &&
          ((items.getEntry p.1).values.all Model.featureRequiredOk)) = false →
      ∃ name exp act, act < exp ∧
        Model.requiredCheck.go items specs =
          .error (.requirementNotMet name exp act) ∧
        ((∃ me, (name, me) ∈ specs ∧ me.required = exp ∧
            (items.getEntry name).values.length = act) ∨
          (∃ k f, f ∈ (items.getEntry k).values ∧
            ∃ se, (name, se) ∈ f.specs ∧ se.required = exp ∧
              (f.items.getEntry name).values.length = act)) := by
  intro specs
  induction specs with
  | nil => intro h; simp at h
  | cons p rest ih =>
      obtain ⟨k, me⟩ := p
      intro h
      by_cases hk : me.required ≤ (items.getEntry k).values.length
      · have hnlt : ¬((items.getEntry k).values.length < me.required) := by omega
        have hcond : (decide (0 < me.required) &&
            decide ((items.getEntry k).values.length < me.required)) = false := by
          rw [decide_eq_false hnlt, Bool.and_false]
        have hgo : Model.requiredCheck.go items ((k, me) :: rest) =
            (items.getEntry k).values.forM Model.featureRequiredCheck >>=
              (fun _ => Model.requiredCheck.go items rest) := by
          simp only [Model.requiredCheck.go]
          rw [if_bool_false _ _ hcond]
        by_cases hfeat : ((items.getEntry k).values.all Model.featureRequiredOk) = true
        · have hall : (rest.all fun p =>
              decide (p.2.required ≤ (items.getEntry p.1).values.length) &&
                ((items.getEntry p.1).values.all Model.featureRequiredOk)) = false := by
            simp only [List.all_cons, decide_eq_true hk, hfeat, Bool.true_and] at h
            exact h
          obtain ⟨name, exp, act, hlt, hgo2, hoff⟩ := ih hall
          refine ⟨name, exp, act, hlt, ?_, ?_⟩
          · rw [hgo,
              forM_ok _ _ (fun f hf => featureCheck_ok f (List.all_eq_true.mp hfeat f hf))]
            exact hgo2
          · refine hoff.imp ?_ id
            rintro ⟨me2, hmem, hreq, hact⟩
            exact ⟨me2, List.mem_cons_of_mem _ hmem, hreq, hact⟩
        · have hfeat2 : ((items.getEntry k).values.all Model.featureRequiredOk) = false := by
            cases hb : ((items.getEntry k).values.all Model.featureRequiredOk)
            · rfl
            · exact absurd hb hfeat
          obtain ⟨f, hf, hfok⟩ := all_false_exists _ _ hfeat2
          obtain ⟨name, se, hmem, hlt, herr⟩ := featureCheck_error f hfok
          obtain ⟨f2, err, hf2, herr2, hrun⟩ := forM_error _ _ ⟨f, hf, _, herr⟩
          have hf2bad : Model.featureRequiredOk f2 = false := by
            cases hb : Model.featureRequiredOk f2
            · rfl
            · exfalso
              have hok2 := featureCheck_ok f2 hb
              rw [herr2] at hok2
              exact Except.noConfusion hok2
          obtain ⟨name2, se2, hmem2, hlt2, herr3⟩ := featureCheck_error f2 hf2bad
          have herreq : err = PyError.requirementNotMet name2 se2.required
              ((f2.items.getEntry name2).values.length) := by
            rw [herr2] at herr3
            exact Except.error.inj herr3
          refine ⟨name2, se2.required, (f2.items.getEntry name2).values.length,
            hlt2, ?_, Or.inr ⟨k, f2, hf2, se2, hmem2, rfl, rfl⟩⟩
          rw [hgo, hrun, herreq]
          rfl
      · have hlt : (items.getEntry k).values.length < me.required := by omega
        have hpos : 0 < me.required := by omega
        have hcond : (decide (0 < me.required) &&
            decide ((items.getEntry k).values.length < me.required)) = true := by
          rw [decide_eq_true hpos, decide_eq_true hlt]
          rfl
        refine ⟨k, me.required, (items.getEntry k).values.length, hlt, ?_,
          Or.inl ⟨me, by simp, rfl, rfl⟩⟩
        simp only [Model.requiredCheck.go]
        rw [if_bool_true _ _ hcond]

/-- C1 (against the spec-modelled required-check, left as a TODO in the
`src/` snapshot of `_ModelUserSpace.run` while the repository tests exercise
it): the two-phase compute step runs the framework required-check first and
the user override second.  With every required count met — recursively one
level down into the stored feature containers — the compute step reduces to
the user override; otherwise it fails with a `RequirementNotMet` error
identifying a genuinely offending name together with the expected and actual
counts. -/
theorem c1_run_required_check {σ α β : Type}
    (m : Model σ α) (compute : Model σ α → Except PyError β) :
    (Model.requiredOk m = true → Model.run m compute = compute m) ∧
    (Model.requiredOk m = false →
      ∃ name exp act, act < exp ∧
        Model.run m compute = .error (.requirementNotMet name exp act) ∧
        Model.offender m name exp act) := by
  constructor
  · intro hok
    have hgo : Model.requiredCheck.go m.items m.specs = .ok () :=
      requiredCheck_go_ok m.items m.specs hok
    show Model.requiredCheck.go m.items m.specs >>= (fun _ => compute m) = compute m
    rw [hgo]
    rfl
  · intro hbad
    obtain ⟨name, exp, act, hlt, hgo, hoff⟩ :=
      requiredCheck_go_error m.items m.specs hbad
    refine ⟨name, exp, act, hlt, ?_, hoff⟩
    show Model.requiredCheck.go m.items m.specs >>= (fun _ => compute m) = _
    rw [hgo]
    rfl

/-- C1 witness: on the concrete scenario of spec §8 — `wing` feature with
property `B`, `required = 3` — the compute step fails with
`RequirementNotMet` while only two `B` values are present, and succeeds with
three. -/
theorem c1_witness :
    Model.run mWing3 computeEx = computeEx mWing3 ∧
    (∃ name exp act, act < exp ∧
      Model.run mWing2 computeEx = .error (.requirementNotMet name exp act) ∧
      Model.offender mWing2 name exp act) :=
  ⟨(c1_run_required_check mWing3 computeEx).1 (by decide),
   (c1_run_required_check mWing2 computeEx).2 (by decide)⟩

/-! ### C8 — `iter_by_uid` ordering and skipped values -/

theorem alookup_mem {κ β : Type} [DecidableEq κ] :
    ∀ (l : List (κ × β)) (k : κ) (v : β), alookup l k = some v → (k, v) ∈ l := by
  intro l
  induction l with
  | nil => intro k v h; exact Option.noConfusion h
  | cons p rest ih =>
      intro k v h
      obtain ⟨k1, v1⟩ := p
      by_cases h1 : k1 = k
      · subst h1
        simp only [alookup, if_pos rfl] at h
        rw [← Option.some.inj h]
        simp
      · simp only [alookup, h1, if_false] at h
        exact List.mem_cons_of_mem _ (ih k v h)

theorem except_bind_ok {β γ : Type} (a : β) (g : β → Except PyError γ) :
    (Except.ok a >>= g) = g a := rfl

theorem mapM_over_filter {γ : Type} (step : Int → Except PyError γ)
    (h2 : Int → Option γ) (p : Int → Bool) :
    ∀ lst : List Int,
      (∀ i ∈ lst, (p i = true → ∃ y, step i = .ok y ∧ h2 i = some y) ∧
        (p i = false → h2 i = none)) →
      (lst.filter p).mapM step = .ok (lst.filterMap h2) := by
  intro lst
  induction lst with
  | nil => intro _; rfl
  | cons i rest ih =>
      intro h
      have hrest := fun j hj => h j (List.mem_cons_of_mem i hj)
      cases hp : p i with
      | true =>
          obtain ⟨y, hstep, hh2⟩ := (h i (by simp)).1 hp
          rw [List.filter_cons_of_pos hp, List.filterMap_cons_some hh2]
          simp only [List.mapM_cons, hstep, except_bind_ok, ih hrest]
          rfl
      | false =>
          rw [List.filter_cons_of_neg (by simp [hp]),
            List.filterMap_cons_none ((h i (by simp)).2 hp)]
          exact ih hrest

/-- C8 counterexample: on the store `dTwo` — name `a` holding the two
values `1, 2`, with a UID only on ordinal 1 — `iter_by_uid` yields a single
pair, not one pair per stored value: the value without a UID is skipped
(the source iterates `sorted(self._uid[kmain].values())`, which contains
only UID-assigned ordinals, and surfaces only UIDs, never raw ordinals). -/
theorem c8_counterexample :
    dTwo.iterByUid "a" = .ok [("u", 2)] ∧
    (dTwo.getEntry "a").values.length = 2 :=
  ⟨rfl, rfl⟩

/-- C8 (amended): for every ItemStore name whose UID bookkeeping is
well-formed, the in-order iteration yields exactly one `(uid, value)` pair
for every UID-assigned ordinal of that name, in ascending ordinal order —
the identifier is always the UID, and ordinals without a UID are skipped.
Stated as equality with `iterateInOrderSpec`, the reference function that
walks the ordinals in ascending order and keeps the UID-assigned ones. -/
theorem c8_iterByUid_in_order {α : Type} (d : ItemDict α) (k : String)
    (e : ItemEntry α) (he : alookup d k = some e) (hwf : e.wfUid = true) :
    d.iterByUid k = .ok (iterateInOrderSpec e) := by
  unfold ItemEntry.wfUid at hwf
  simp only [Bool.and_eq_true, decide_eq_true_eq, List.all_eq_true] at hwf
  obtain ⟨⟨⟨hndU, hndSnd⟩, hfwd⟩, hinv⟩ := hwf
  have hfwd2 : ∀ p ∈ e.uidToIdx, 0 ≤ p.2 ∧ p.2 < (e.values.length : Int) ∧
      alookup e.idxToUid p.2 = some p.1 := by
    intro p hp
    have hh := hfwd p hp
    simp only [Bool.and_eq_true, decide_eq_true_eq] at hh
    exact ⟨hh.1.1, hh.1.2, hh.2⟩
  have hinv2 : ∀ p ∈ e.idxToUid, alookup e.uidToIdx p.2 = some p.1 := by
    intro p hp
    have hh := hinv p hp
    simpa using hh
  -- the ascending ordinal walks of implementation and specification agree
  have hstep1 : sortInts (e.uidToIdx.map Prod.snd) =
      ((List.range e.values.length).map (fun j : Nat => (j : Int))).filter
        (fun i => decide (i ∈ e.uidToIdx.map Prod.snd)) := by
    have hndL : (((List.range e.values.length).map (fun j : Nat => (j : Int))).filter
        (fun i => decide (i ∈ e.uidToIdx.map Prod.snd))).Nodup :=
      List.Nodup.filter _
        (List.Nodup.map (fun a b h => by omega) (List.nodup_range _))
    have hndS : (sortInts (e.uidToIdx.map Prod.snd)).Nodup :=
      ((List.perm_insertionSort _ _).nodup_iff).mpr hndSnd
    have hperm : List.Perm (sortInts (e.uidToIdx.map Prod.snd))
        (((List.range e.values.length).map (fun j : Nat => (j : Int))).filter
          (fun i => decide (i ∈ e.uidToIdx.map Prod.snd))) := by
      refine (List.perm_insertionSort _ _).trans ?_
      rw [List.perm_ext_iff_of_nodup hndSnd hndL]
      intro i
      constructor
      · intro hiU
        rw [List.mem_filter]
        refine ⟨?_, by simpa using hiU⟩
        obtain ⟨q, hq, hqi⟩ := List.mem_map.mp hiU
        obtain ⟨h0, hn, _⟩ := hfwd2 q hq
        rw [hqi] at h0 hn
        rw [List.mem_map]
        exact ⟨i.toNat, List.mem_range.mpr (by omega), by omega⟩
      · intro hiL
        rw [List.mem_filter] at hiL
        simpa using hiL.2
    have hs1 : (sortInts (e.uidToIdx.map Prod.snd)).Sorted (· ≤ ·) :=
      List.sorted_insertionSort _ _
    have hs2 : (((List.range e.values.length).map (fun j : Nat => (j : Int))).filter
        (fun i => decide (i ∈ e.uidToIdx.map Prod.snd))).Sorted (· ≤ ·) := by
      have hsr : (((List.range e.values.length).map
          (fun j : Nat => (j : Int)))).Sorted (· ≤ ·) := by
        unfold List.Sorted
        rw [List.pairwise_map]
        exact List.Pairwise.imp (fun hab => by omega)
          (List.sorted_le_range e.values.length)
      exact List.Pairwise.filter _ hsr
    exact List.eq_of_perm_of_sorted hperm hs1 hs2
  -- the specification walk as a filterMap over the cast range
  have hord : ∀ j : Nat, lookupOrd e.values ((j : Nat) : Int) = e.values.get? j := by
    intro j
    unfold lookupOrd
    rw [if_neg (by omega), Int.toNat_natCast]
  have hspec3 : iterateInOrderSpec e =
      ((List.range e.values.length).map (fun j : Nat => (j : Int))).filterMap
        (fun i =>
          match alookup e.idxToUid i, lookupOrd e.values i with
          | some uid, some v => some (uid, v)
          | _, _ => none) := by
    unfold iterateInOrderSpec
    rw [List.filterMap_map]
    apply List.filterMap_congr
    intro j _
    simp only [Function.comp_apply]
    rw [hord j]
  -- assemble
  simp only [ItemDict.iterByUid, he]
  rw [hstep1, hspec3]
  apply mapM_over_filter
  intro i _
  constructor
  · intro hp
    have hiU : i ∈ e.uidToIdx.map Prod.snd := of_decide_eq_true hp
    obtain ⟨q, hq, hqi⟩ := List.mem_map.mp hiU
    obtain ⟨h0, hn, halk⟩ := hfwd2 q hq
    rw [hqi] at halk h0 hn
    have hbound : i.toNat < e.values.length := by omega
    have hget : e.values.get? i.toNat = some (e.values.get ⟨i.toNat, hbound⟩) :=
      List.get?_eq_get hbound
    have hordi : lookupOrd e.values i = some (e.values.get ⟨i.toNat, hbound⟩) := by
      unfold lookupOrd
      rw [if_neg (by omega)]
      exact hget
    refine ⟨(q.1, e.values.get ⟨i.toNat, hbound⟩), ?_, ?_⟩
    · simp only [halk, hordi]
    · simp only [halk, hordi]
  · intro hp
    have hiU : ¬(i ∈ e.uidToIdx.map Prod.snd) := of_decide_eq_false hp
    cases halk : alookup e.idxToUid i with
    | none => simp only [halk]
    | some u =>
        exfalso
        have hmem : (i, u) ∈ e.idxToUid := alookup_mem _ _ _ halk
        have hUu : alookup e.uidToIdx u = some i := hinv2 (i, u) hmem
        have hmemU : (u, i) ∈ e.uidToIdx := alookup_mem _ _ _ hUu
        exact hiU (List.mem_map.mpr ⟨(u, i), hmemU, rfl⟩)

/-- C8 witness: the amended statement evaluated on the concrete store
`dTwo`: the iteration yields exactly the pair for the single UID-assigned
ordinal. -/
theorem c8_witness :
    dTwo.iterByUid "a" =
      .ok (iterateInOrderSpec ⟨[1, 2], [("u", 1)], [((1 : Int), "u")]⟩) :=
  c8_iterByUid_in_order dTwo "a" ⟨[1, 2], [("u", 1)], [((1 : Int), "u")]⟩
    (by rfl) (by decide)

/-! ### C7 — serialization round trip -/

theorem alookup_none_forall {κ β : Type} [DecidableEq κ] :
    ∀ (l : List (κ × β)) (k : κ), alookup l k = none → ∀ p ∈ l, p.1 ≠ k := by
  intro l
  induction l with
  | nil => intro k _ p hp; simp at hp
  | cons q rest ih =>
      intro k h p hp
      obtain ⟨k1, v1⟩ := q
      by_cases h1 : k1 = k
      · simp [alookup, h1] at h
      · simp only [alookup, h1, if_false] at h
        rcases List.mem_cons.mp hp with h2 | h2
        · rw [h2]; exact h1
        · exact ih k h p h2

theorem alookup_append_last_self {κ β : Type} [DecidableEq κ]
    (l : List (κ × β)) (k : κ) (e : β) (h : alookup l k = none) :
    alookup (l ++ [(k, e)]) k = some e := by
  rw [alookup_append_of_none _ h]
  simp [alookup]

theorem aupdate_append_last {κ β : Type} [DecidableEq κ] :
    ∀ (l : List (κ × β)) (k : κ) (e e2 : β), alookup l k = none →
      aupdate (l ++ [(k, e)]) k e2 = l ++ [(k, e2)] := by
  intro l
  induction l with
  | nil => intro k e e2 _; simp [aupdate]
  | cons q rest ih =>
      intro k e e2 h
      obtain ⟨k1, v1⟩ := q
      by_cases h1 : k1 = k
      · simp [alookup, h1] at h
      · simp only [alookup, h1, if_false] at h
        simp only [List.cons_append, aupdate, h1, if_false, List.append_eq]
        rw [ih k e e2 h]

theorem appendItem_of_none {α : Type} (acc : ItemDict α) (k : String) (v : α)
    (h : alookup acc k = none) :
    ItemDict.appendItem acc k v = acc ++ [(k, ⟨[v], [], []⟩)] := by
  unfold ItemDict.appendItem
  rw [h]

theorem appendItem_last {α : Type} (acc : ItemDict α) (k : String)
    (e : ItemEntry α) (v : α) (h : alookup acc k = none) :
    ItemDict.appendItem (acc ++ [(k, e)]) k v =
      acc ++ [(k, ⟨e.values ++ [v], e.uidToIdx, e.idxToUid⟩)] := by
  unfold ItemDict.appendItem
  rw [alookup_append_last_self _ _ _ h]
  exact aupdate_append_last _ _ _ _ h

theorem addMany_items_go {σ α : Type} (validate : σ → α → Bool) (k : String)
    (se : SpecEntry σ) (fspecs : List (String × SpecEntry σ))
    (halk : alookup fspecs k = some se) (hs : se.singleton = false)
    (hu : se.uidRequired = false) :
    ∀ (vs : List α) (acc : ItemDict α) (cur : List α),
      (∀ v ∈ vs, validate se.schema v = true) →
      alookup acc k = none →
      Feature.addMany validate ⟨fspecs, acc ++ [(k, ⟨cur, [], []⟩)]⟩ k vs =
        .ok ⟨fspecs, acc ++ [(k, ⟨cur ++ vs, [], []⟩)]⟩ := by
  intro vs
  induction vs with
  | nil =>
      intro acc cur _ _
      rw [List.append_nil]
      rfl
  | cons v rest ih =>
      intro acc cur hall hacc
      have hadd := add_ok validate ⟨fspecs, acc ++ [(k, ⟨cur, [], []⟩)]⟩ v halk hs hu
        (hall v (by simp))
      rw [appendItem_last _ _ _ _ hacc] at hadd
      calc Feature.addMany validate ⟨fspecs, acc ++ [(k, ⟨cur, [], []⟩)]⟩ k (v :: rest)
          = Feature.addMany validate
              ⟨fspecs, acc ++ [(k, ⟨cur ++ [v], [], []⟩)]⟩ k rest :=
            foldlM_cons_step _ _ _ _ _ hadd
        _ = .ok ⟨fspecs, acc ++ [(k, ⟨(cur ++ [v]) ++ rest, [], []⟩)]⟩ :=
            ih acc (cur ++ [v]) (fun w hw => hall w (List.mem_cons_of_mem v hw)) hacc
        _ = .ok ⟨fspecs, acc ++ [(k, ⟨cur ++ v :: rest, [], []⟩)]⟩ := by
            rw [List.append_assoc]
            rfl

theorem feature_fromDictStep_ok {σ α : Type} (validate : σ → α → Bool)
    (fspecs : List (String × SpecEntry σ)) (acc : ItemDict α) (k : String)
    (ent : ItemEntry α) (se : SpecEntry σ)
    (hdollar : startsWithDollar k = false)
    (halk : alookup fspecs k = some se)
    (hok : se.okValues validate ent.values = true)
    (hacc : alookup acc k = none) :
    Feature.fromDictStep validate ⟨fspecs, acc⟩ (k, ent.values) =
      .ok ⟨fspecs, acc ++ [(k, ent.strip)]⟩ := by
  have hstrip : ent.strip = (⟨ent.values, [], []⟩ : ItemEntry α) := rfl
  unfold SpecEntry.okValues at hok
  simp only [Bool.and_eq_true] at hok
  obtain ⟨⟨hne, hcard⟩, hall⟩ := hok
  have hne2 : ent.values ≠ [] := by
    intro h0; rw [h0] at hne; simp at hne
  unfold Feature.fromDictStep
  rw [if_bool_false _ _ hdollar]
  simp only [halk]
  cases hsing : se.singleton with
  | true =>
      rw [if_bool_true _ _ hsing] at hcard
      obtain ⟨v, hv⟩ := List.length_eq_one.mp (of_decide_eq_true hcard)
      rw [if_pos rfl, hstrip, hv]
      show Feature.set validate ⟨fspecs, acc⟩ k v = _
      rw [set_ok validate _ v halk hsing
        (List.all_eq_true.mp hall v (by rw [hv]; simp))]
      show Except.ok (⟨fspecs, (ItemDict.delItem acc k).appendItem k v⟩ : Feature σ α) = _
      unfold ItemDict.delItem
      rw [aerase_of_none hacc, appendItem_of_none _ _ _ hacc]
  | false =>
      have hu : se.uidRequired = false := by
        rw [if_bool_false _ _ hsing] at hcard
        cases hb : se.uidRequired
        · rfl
        · rw [hb] at hcard; simp at hcard
      obtain ⟨v, vs, hv⟩ : ∃ v vs, ent.values = v :: vs := by
        cases hvv : ent.values with
        | nil => exact absurd hvv hne2
        | cons a l => exact ⟨a, l, rfl⟩
      rw [if_neg (by decide), hstrip, hv]
      have hschema : ∀ w ∈ v :: vs, validate se.schema w = true := by
        intro w hw
        exact List.all_eq_true.mp hall w (by rw [hv]; exact hw)
      have hadd := add_ok validate ⟨fspecs, acc⟩ v halk hsing hu
        (hschema v (by simp))
      rw [appendItem_of_none _ _ _ hacc] at hadd
      calc Feature.addMany validate ⟨fspecs, acc⟩ k (v :: vs)
          = Feature.addMany validate ⟨fspecs, acc ++ [(k, ⟨[v], [], []⟩)]⟩ k vs :=
            foldlM_cons_step _ _ _ _ _ hadd
        _ = .ok ⟨fspecs, acc ++ [(k, ⟨[v] ++ vs, [], []⟩)]⟩ :=
            addMany_items_go validate k se fspecs halk hsing hu vs acc [v]
              (fun w hw => hschema w (List.mem_cons_of_mem v hw)) hacc
        _ = .ok ⟨fspecs, acc ++ [(k, ⟨v :: vs, [], []⟩)]⟩ := rfl

theorem feature_fromDict_go {σ α : Type} (validate : σ → α → Bool)
    (fspecs : List (String × SpecEntry σ)) :
    ∀ (entries : List (String × ItemEntry α)) (acc : ItemDict α),
      (∀ p ∈ entries, startsWithDollar p.1 = false ∧
        ∃ se, alookup fspecs p.1 = some se ∧
          se.okValues validate p.2.values = true) →
      (∀ p ∈ entries, alookup acc p.1 = none) →
      keysNodup entries = true →
      Feature.fromDict validate ⟨fspecs, acc⟩
          (entries.map fun p => (p.1, p.2.values)) =
        .ok ⟨fspecs, acc ++ entries.map fun p => (p.1, p.2.strip)⟩ := by
  intro entries
  induction entries with
  | nil =>
      intro acc _ _ _
      show Feature.fromDict validate ⟨fspecs, acc⟩ [] = .ok ⟨fspecs, acc ++ []⟩
      rw [List.append_nil]
      rfl
  | cons p rest ih =>
      obtain ⟨k, ent⟩ := p
      intro acc hconds hdisj hnd
      obtain ⟨hd, se, halk, hok⟩ := hconds (k, ent) (by simp)
      have hstep := feature_fromDictStep_ok validate fspecs acc k ent se hd halk hok
        (hdisj (k, ent) (by simp))
      simp only [keysNodup, Bool.and_eq_true, Option.isNone_iff_eq_none] at hnd
      have hdisj2 : ∀ q ∈ rest, alookup (acc ++ [(k, ent.strip)]) q.1 = none := by
        intro q hq
        rw [alookup_append_of_none _ (hdisj q (List.mem_cons_of_mem _ hq))]
        have hne : ¬k = q.1 := fun he =>
          (alookup_none_forall rest k hnd.1 q hq) he.symm
        simp [alookup, hne]
      calc Feature.fromDict validate ⟨fspecs, acc⟩
            (((k, ent) :: rest).map fun p => (p.1, p.2.values))
          = Feature.fromDict validate ⟨fspecs, acc ++ [(k, ent.strip)]⟩
              (rest.map fun p => (p.1, p.2.values)) :=
            foldlM_cons_step _ _ _ _ _ hstep
        _ = .ok ⟨fspecs,
              (acc ++ [(k, ent.strip)]) ++ rest.map fun p => (p.1, p.2.strip)⟩ :=
            ih (acc ++ [(k, ent.strip)])
              (fun q hq => hconds q (List.mem_cons_of_mem _ hq)) hdisj2 hnd.2
        _ = .ok ⟨fspecs,
              acc ++ ((k, ent) :: rest).map fun p => (p.1, p.2.strip)⟩ := by
            rw [List.append_assoc]
            rfl

theorem feature_roundtrip {σ α : Type} (validate : σ → α → Bool)
    (f : Feature σ α) (h : f.rtReady validate = true) :
    Feature.fromDict validate ⟨f.specs, []⟩ f.toDict = .ok (Feature.strip f) := by
  unfold Feature.rtReady at h
  simp only [Bool.and_eq_true, List.all_eq_true] at h
  obtain ⟨hnd, hall⟩ := h
  have hconds : ∀ p ∈ f.items, startsWithDollar p.1 = false ∧
      ∃ se, alookup f.specs p.1 = some se ∧
        se.okValues validate p.2.values = true := by
    intro p hp
    have hh := hall p hp
    simp only [Bool.and_eq_true] at hh
    obtain ⟨hd, hm⟩ := hh
    refine ⟨?_, ?_⟩
    · cases hb : startsWithDollar p.1
      · rfl
      · rw [hb] at hd; simp at hd
    · cases halk : alookup f.specs p.1 with
      | none => rw [halk] at hm; simp at hm
      | some se => rw [halk] at hm; exact ⟨se, rfl, hm⟩
  show Feature.fromDict validate ⟨f.specs, []⟩
      (f.items.map fun p => (p.1, p.2.values)) = _
  rw [feature_fromDict_go validate f.specs f.items [] hconds (fun p _ => rfl) hnd]
  rfl

theorem model_inner_go {σ α : Type} (validate : σ → α → Bool)
    (mspecs : List (String × MSpecEntry σ)) (k : String) (me : MSpecEntry σ)
    (hbranch : (decide (me.singleton = false) && me.uidRequired) = false) :
    ∀ (fs : List (Feature σ α)) (acc : ItemDict (Feature σ α))
      (cur : List (Feature σ α)),
      (∀ f ∈ fs, f.specs = me.fspec ∧ f.rtReady validate = true) →
      alookup acc k = none →
      List.foldlM (Model.fromDictOne validate k me)
          (⟨mspecs, acc ++ [(k, ⟨cur, [], []⟩)]⟩ : Model σ α)
          (fs.map Feature.toDict) =
        .ok ⟨mspecs, acc ++ [(k, ⟨cur ++ fs.map Feature.strip, [], []⟩)]⟩ := by
  intro fs
  induction fs with
  | nil =>
      intro acc cur _ _
      show List.foldlM (Model.fromDictOne validate k me)
          (⟨mspecs, acc ++ [(k, ⟨cur, [], []⟩)]⟩ : Model σ α) [] =
        .ok ⟨mspecs, acc ++ [(k, ⟨cur ++ [], [], []⟩)]⟩
      rw [List.append_nil]
      rfl
  | cons f0 fs2 ih =>
      intro acc cur hallf hacc
      have hf0 := hallf f0 (by simp)
      have hone : Model.fromDictOne validate k me
          (⟨mspecs, acc ++ [(k, ⟨cur, [], []⟩)]⟩ : Model σ α) (Feature.toDict f0) =
          .ok ⟨mspecs, acc ++ [(k, ⟨cur ++ [Feature.strip f0], [], []⟩)]⟩ := by
        unfold Model.fromDictOne
        rw [if_bool_false _ _ hbranch]
        have hrt := feature_roundtrip validate f0 hf0.2
        rw [hf0.1] at hrt
        show Feature.fromDict validate ⟨me.fspec, []⟩ (Feature.toDict f0) >>=
          (fun inst => Except.ok (⟨mspecs,
            ItemDict.appendItem
              (acc ++ [(k, (⟨cur, [], []⟩ : ItemEntry (Feature σ α)))]) k
              inst⟩ : Model σ α)) = _
        rw [hrt, except_bind_ok, appendItem_last _ _ _ _ hacc]
      calc List.foldlM (Model.fromDictOne validate k me)
            (⟨mspecs, acc ++ [(k, ⟨cur, [], []⟩)]⟩ : Model σ α)
            ((f0 :: fs2).map Feature.toDict)
          = List.foldlM (Model.fromDictOne validate k me)
              (⟨mspecs, acc ++ [(k, ⟨cur ++ [Feature.strip f0], [], []⟩)]⟩ : Model σ α)
              (fs2.map Feature.toDict) :=
            foldlM_cons_step _ _ _ _ _ hone
        _ = .ok ⟨mspecs, acc ++
              [(k, ⟨(cur ++ [Feature.strip f0]) ++ fs2.map Feature.strip, [], []⟩)]⟩ :=
            ih acc (cur ++ [Feature.strip f0])
              (fun f hf => hallf f (List.mem_cons_of_mem f0 hf)) hacc
        _ = .ok ⟨mspecs, acc ++
              [(k, ⟨cur ++ (f0 :: fs2).map Feature.strip, [], []⟩)]⟩ := by
            rw [List.append_assoc]
            rfl

theorem model_fromDict_go {σ α : Type} (validate : σ → α → Bool)
    (mspecs : List (String × MSpecEntry σ)) :
    ∀ (entries : List (String × ItemEntry (Feature σ α)))
      (acc : ItemDict (Feature σ α)),
      (∀ p ∈ entries, startsWithDollar p.1 = false ∧
        ∃ me, alookup mspecs p.1 = some me ∧ p.2.values ≠ [] ∧
          (decide (me.singleton = false) && me.uidRequired) = false ∧
          ∀ f ∈ p.2.values, f.specs = me.fspec ∧ f.rtReady validate = true) →
      (∀ p ∈ entries, alookup acc p.1 = none) →
      keysNodup entries = true →
      Model.fromDict validate ⟨mspecs, acc⟩
          (entries.map fun p => (p.1, p.2.values.map Feature.toDict)) =
        .ok ⟨mspecs, acc ++
          entries.map fun p => (p.1, ⟨p.2.values.map Feature.strip, [], []⟩)⟩ := by
  intro entries
  induction entries with
  | nil =>
      intro acc _ _ _
      show Model.fromDict validate ⟨mspecs, acc⟩ [] = .ok ⟨mspecs, acc ++ []⟩
      rw [List.append_nil]
      rfl
  | cons p rest ih =>
      obtain ⟨k, ent⟩ := p
      intro acc hconds hdisj hnd
      obtain ⟨hd, me, halk, hne, hbranch, hallf⟩ := hconds (k, ent) (by simp)
      have hacck : alookup acc k = none := hdisj (k, ent) (by simp)
      obtain ⟨f0, fs2, hfv⟩ : ∃ f0 fs2, ent.values = f0 :: fs2 := by
        cases hvv : ent.values with
        | nil => exact absurd hvv hne
        | cons a l => exact ⟨a, l, rfl⟩
      have hstep : Model.fromDictStep validate ⟨mspecs, acc⟩
          (k, ent.values.map Feature.toDict) =
          .ok ⟨mspecs, acc ++ [(k, ⟨ent.values.map Feature.strip, [], []⟩)]⟩ := by
        unfold Model.fromDictStep
        rw [if_bool_false _ _ hd]
        simp only [halk]
        rw [hfv]
        have hf0 := hallf f0 (by rw [hfv]; simp)
        have hone : Model.fromDictOne validate k me (⟨mspecs, acc⟩ : Model σ α)
            (Feature.toDict f0) =
            .ok ⟨mspecs, acc ++ [(k, ⟨[Feature.strip f0], [], []⟩)]⟩ := by
          unfold Model.fromDictOne
          rw [if_bool_false _ _ hbranch]
          have hrt := feature_roundtrip validate f0 hf0.2
          rw [hf0.1] at hrt
          show Feature.fromDict validate ⟨me.fspec, []⟩ (Feature.toDict f0) >>=
            (fun inst => Except.ok (⟨mspecs,
              ItemDict.appendItem acc k inst⟩ : Model σ α)) = _
          rw [hrt, except_bind_ok, appendItem_of_none _ _ _ hacck]
        calc List.foldlM (Model.fromDictOne validate k me)
              (⟨mspecs, acc⟩ : Model σ α) ((f0 :: fs2).map Feature.toDict)
            = List.foldlM (Model.fromDictOne validate k me)
                (⟨mspecs, acc ++ [(k, ⟨[Feature.strip f0], [], []⟩)]⟩ : Model σ α)
                (fs2.map Feature.toDict) :=
              foldlM_cons_step _ _ _ _ _ hone
          _ = .ok ⟨mspecs, acc ++
                [(k, ⟨[Feature.strip f0] ++ fs2.map Feature.strip, [], []⟩)]⟩ :=
              model_inner_go validate mspecs k me hbranch fs2 acc [Feature.strip f0]
                (fun f hf => hallf f (by rw [hfv]; exact List.mem_cons_of_mem f0 hf))
                hacck
          _ = .ok ⟨mspecs, acc ++
                [(k, ⟨(f0 :: fs2).map Feature.strip, [], []⟩)]⟩ := rfl
      simp only [keysNodup, Bool.and_eq_true, Option.isNone_iff_eq_none] at hnd
      have hdisj2 : ∀ q ∈ rest,
          alookup (acc ++ [(k, ⟨ent.values.map Feature.strip, [], []⟩)]) q.1 = none := by
        intro q hq
        rw [alookup_append_of_none _ (hdisj q (List.mem_cons_of_mem _ hq))]
        have hne2 : ¬k = q.1 := fun he =>
          (alookup_none_forall rest k hnd.1 q hq) he.symm
        simp [alookup, hne2]
      calc Model.fromDict validate ⟨mspecs, acc⟩
            (((k, ent) :: rest).map fun p => (p.1, p.2.values.map Feature.toDict))
          = Model.fromDict validate
              ⟨mspecs, acc ++ [(k, ⟨ent.values.map Feature.strip, [], []⟩)]⟩
              (rest.map fun p => (p.1, p.2.values.map Feature.toDict)) :=
            foldlM_cons_step _ _ _ _ _ hstep
        _ = .ok ⟨mspecs,
              (acc ++ [(k, ⟨ent.values.map Feature.strip, [], []⟩)]) ++
                rest.map fun p => (p.1, ⟨p.2.values.map Feature.strip, [], []⟩)⟩ :=
            ih (acc ++ [(k, ⟨ent.values.map Feature.strip, [], []⟩)])
              (fun q hq => hconds q (List.mem_cons_of_mem _ hq)) hdisj2 hnd.2
        _ = .ok ⟨mspecs, acc ++
              ((k, ent) :: rest).map
                fun p => (p.1, ⟨p.2.values.map Feature.strip, [], []⟩)⟩ := by
            rw [List.append_assoc]
            rfl

theorem toDict_strip {σ α : Type} (f : Feature σ α) :
    Feature.toDict (Feature.strip f) = Feature.toDict f := by
  unfold Feature.toDict Feature.strip
  rw [List.map_map]
  apply List.map_congr_left
  intro p _
  rfl

/-- C7 counterexample: serialization drops UIDs, so for the model `mUR` —
populated under a multi-valued `uid_required` property entry, a container
the claim quantifies over — feeding `to_plain` back into `from_plain` on a
fresh container raises the missing-UID error instead of reproducing the
stored leaf value. -/
theorem c7_counterexample :
    Model.fromDict valAll ⟨mUR.specs, []⟩ (Model.toDict mUR) =
      .error (.runtimeError ("p" ++ " requires a UID")) ∧
    Feature.len fUR "p" = 1 :=
  ⟨rfl, rfl⟩

/-- C7 (amended): for every round-trip-ready model container — populated
through the API with a mix of singleton and multi-valued features and
properties, with or without UIDs, provided no populated multi-valued entry
declares `uid_required` — serializing with `to_plain` and feeding the result
into `from_plain` on a fresh container bound to the same registry
reproduces every stored feature with every leaf value in order (only the
UID bookkeeping, which the plain form does not carry, is dropped), and in
particular the serialized form of the rebuilt container — every leaf value
and every per-name feature count — matches the original exactly. -/
theorem c7_roundtrip_amended {σ α : Type} [DecidableEq σ]
    (validate : σ → α → Bool) (m : Model σ α)
    (h : Model.rtReady validate m = true) :
    Model.fromDict validate ⟨m.specs, []⟩ (Model.toDict m) =
      .ok (Model.stripAll m) ∧
    Model.toDict (Model.stripAll m) = Model.toDict m := by
  constructor
  · unfold Model.rtReady at h
    simp only [Bool.and_eq_true, List.all_eq_true] at h
    obtain ⟨hnd, hall⟩ := h
    have hconds : ∀ p ∈ m.items, startsWithDollar p.1 = false ∧
        ∃ me, alookup m.specs p.1 = some me ∧ p.2.values ≠ [] ∧
          (decide (me.singleton = false) && me.uidRequired) = false ∧
          ∀ f ∈ p.2.values, f.specs = me.fspec ∧ f.rtReady validate = true := by
      intro p hp
      have hh := hall p hp
      simp only [Bool.and_eq_true] at hh
      obtain ⟨hdb, hm⟩ := hh
      have hd : startsWithDollar p.1 = false := by
        cases hb : startsWithDollar p.1
        · rfl
        · rw [hb] at hdb; simp at hdb
      refine ⟨hd, ?_⟩
      cases halk : alookup m.specs p.1 with
      | none => rw [halk] at hm; simp at hm
      | some me =>
          rw [halk] at hm
          simp only [Bool.and_eq_true, List.all_eq_true] at hm
          obtain ⟨⟨hne, hbr⟩, hfs⟩ := hm
          refine ⟨me, rfl, ?_, ?_, ?_⟩
          · intro h0
            rw [h0] at hne
            simp at hne
          · cases hsing : me.singleton
            · rw [hsing] at hbr
              simp only [Bool.false_or] at hbr
              cases hu : me.uidRequired
              · simp [hsing, hu]
              · rw [hu] at hbr; simp at hbr
            · simp [hsing]
          · intro f hf
            have hfp := hfs f hf
            simp only [Bool.and_eq_true, decide_eq_true_eq] at hfp
            exact hfp
    show Model.fromDict validate ⟨m.specs, []⟩
        (m.items.map fun p => (p.1, p.2.values.map Feature.toDict)) = _
    rw [model_fromDict_go validate m.specs m.items [] hconds (fun p _ => rfl) hnd]
    rfl
  · unfold Model.stripAll Model.toDict
    rw [List.map_map]
    apply List.map_congr_left
    intro p _
    simp only [Function.comp_apply]
    refine congrArg (fun l => (p.1, l)) ?_
    show (p.2.values.map Feature.strip).map Feature.toDict =
      p.2.values.map Feature.toDict
    rw [List.map_map]
    apply List.map_congr_left
    intro f _
    exact toDict_strip f

/-- C7 witness: the amended round trip evaluated on the concrete model
`mMix`, which mixes a singleton feature, two multi-valued feature
containers, a model-level UID and plain property values. -/
theorem c7_witness :
    Model.fromDict valAll ⟨mMix.specs, []⟩ (Model.toDict mMix) =
      .ok (Model.stripAll mMix) ∧
    Model.toDict (Model.stripAll mMix) = Model.toDict mMix :=
  c7_roundtrip_amended valAll mMix (by decide)

/-! ### C10 — `Model.set`/`Model.add` are silent no-ops -/

/-- C10: calling `set` or `add` on a model-kind container never raises and
never stores anything — each call leaves the container untouched and hands
back the `NotImplementedError` class object as an ordinary return value, so
a caller who ignores the return value gets a silent no-op.  The total
(non-`Except`) result type records that no exception can escape. -/
theorem c10_model_set_add_silent_noop {σ α β : Type} (m : Model σ α)
    (key : String) (v : β) :
    Model.set m key v = (m, PyClassVal.notImplementedErrorCls) ∧
    Model.add m key v = (m, PyClassVal.notImplementedErrorCls) :=
  ⟨rfl, rfl⟩

/-! ### C3 — `set_feature` on a singleton name fails to overwrite -/

/-- C3 (code evaluated at the failing input): two `set_feature` calls for
the singleton feature name `study` leave TWO stored sub-containers, not
one — `ItemDict.__setitem__` appends, and `set_feature`, unlike `set`,
never deletes the prior entry, contradicting its own inline comment
("Store instance as list of length 1"). -/
theorem c3_setFeature_twice_stores_two :
    ((mStudy.setFeature "study") >>= fun r => r.1.setFeature "study").map
      (fun r => (r.1.items.getEntry "study").values.length) = .ok 2 := by
  rfl

end MFramework
